import Mathlib

/-!
Verification development for the `dockerize-django-api` scraping service.

The embedding models the core of the repository:
  * `scraper_api/models.py` — `compute_quote_hash`, the `ScrapeJob` state
    machine (`mark_running` / `mark_finished` / `increment_counters`), the
    `Quote.save` hash backfill;
  * `scraper_api/tasks.py` — the `scrape_site` crawl orchestrator (page loop,
    extraction heuristics, idempotent persistence, error bookkeeping).

Strings are sequences of Unicode code points (`List Nat`), mirroring Python
`str`; bytes are `List Nat` with values below 256.  Whitespace and
lower-casing are modelled for the ASCII range plus the common Unicode space
code points (the repository only feeds scraped western text through them).
HTML parsing (BeautifulSoup) is abstracted as an oracle: a fetched `Page`
carries the results of exactly the selector queries `scrape_site` performs.
-/

namespace Scraper

/-- Python `str` modelled as a list of Unicode code points. -/
abbrev Str := List Nat

/-- Code points of a Lean string literal, for writing concrete inputs. -/
def strOf (s : String) : Str := s.toList.map Char.toNat

/-- Python `str.isspace`-style whitespace test used by `strip`/`split`,
covering ASCII whitespace and the common Unicode space code points. -/
def isSpace (c : Nat) : Bool :=
  (9 ≤ c && c ≤ 13) || c == 32 || c == 133 || c == 160 || c == 5760 ||
    (8192 ≤ c && c ≤ 8202) || c == 8232 || c == 8233 || c == 8239 ||
    c == 8287 || c == 12288

def notSpace (c : Nat) : Bool := !(isSpace c)

/-- Python `str.lower` on one code point (ASCII range). -/
def lowerChar (c : Nat) : Nat := if 65 ≤ c ∧ c ≤ 90 then c + 32 else c

/-- Python `str.lower`. -/
def lowerStr (s : Str) : Str := s.map lowerChar

/-- Python `str.strip()`: drop leading and trailing whitespace. -/
def stripStr (s : Str) : Str :=
  ((s.dropWhile isSpace).reverse.dropWhile isSpace).reverse

/-- Python `str.split()` with no separator: split on whitespace runs,
dropping empty words. -/
def splitWs (s : Str) : List Str :=
  match s with
  | [] => []
  | c :: rest =>
    if isSpace c then splitWs rest
    else (c :: rest.takeWhile notSpace) :: splitWs (rest.dropWhile notSpace)
termination_by s.length
decreasing_by
  · simp only [List.length_cons]; omega
  · simp only [List.length_cons]
    have := (List.dropWhile_suffix (l := rest) notSpace).length_le
    omega

/-- Python `" ".join(words)`. -/
def joinSpace : List Str → Str
  | [] => []
  | [w] => w
  | w :: ws => w ++ 32 :: joinSpace ws

/-- The text normalization inside `compute_quote_hash`
(`" ".join((text or "").strip().split()).lower()`, models.py line 14). -/
def normText (s : Str) : Str := lowerStr (joinSpace (splitWs (stripStr s)))

/-- The author-name normalization inside `compute_quote_hash`
(`(author_name or "").strip().lower()`, models.py line 15). -/
def normAuthor (a : Option Str) : Str := lowerStr (stripStr (a.getD []))

/-! ### SHA-256 over byte lists (hashlib.sha256(...).hexdigest()) -/

/-- Truncation to a 32-bit word. -/
def w32 (n : Nat) : Nat := n % 4294967296

/-- Right rotation of a 32-bit word. -/
def rotr (k x : Nat) : Nat := (x >>> k) ||| w32 (x <<< (32 - k))

def bigSigma0 (x : Nat) : Nat := rotr 2 x ^^^ rotr 13 x ^^^ rotr 22 x
def bigSigma1 (x : Nat) : Nat := rotr 6 x ^^^ rotr 11 x ^^^ rotr 25 x
def smallSigma0 (x : Nat) : Nat := rotr 7 x ^^^ rotr 18 x ^^^ (x >>> 3)
def smallSigma1 (x : Nat) : Nat := rotr 17 x ^^^ rotr 19 x ^^^ (x >>> 10)

/-- The SHA-256 round constants. -/
def sha256K : List Nat :=
  [1116352408, 1899447441, 3049323471, 3921009573, 961987163,
   1508970993, 2453635748, 2870763221, 3624381080, 310598401,
   607225278, 1426881987, 1925078388, 2162078206, 2614888103,
   3248222580, 3835390401, 4022224774, 264347078, 604807628,
   770255983, 1249150122, 1555081692, 1996064986, 2554220882,
   2821834349, 2952996808, 3210313671, 3336571891, 3584528711,
   113926993, 338241895, 666307205, 773529912, 1294757372,
   1396182291, 1695183700, 1986661051, 2177026350, 2456956037,
   2730485921, 2820302411, 3259730800, 3345764771, 3516065817,
   3600352804, 4094571909, 275423344, 430227734, 506948616,
   659060556, 883997877, 958139571, 1322822218, 1537002063,
   1747873779, 1955562222, 2024104815, 2227730452, 2361852424,
   2428436474, 2756734187, 3204031479, 3329325298]

/-- The eight working words of the SHA-256 state. -/
structure Hash8 where
  a : Nat
  b : Nat
  c : Nat
  d : Nat
  e : Nat
  f : Nat
  g : Nat
  h : Nat
deriving DecidableEq, Repr

/-- The SHA-256 initial hash value. -/
def sha256H0 : Hash8 :=
  ⟨1779033703, 3144134277, 1013904242, 2773480762,
   1359893119, 2600822924, 528734635, 1541459225⟩

/-- Big-endian assembly of four bytes into one word. -/
def wordOfBytes (b0 b1 b2 b3 : Nat) : Nat :=
  (b0 <<< 24) + (b1 <<< 16) + (b2 <<< 8) + b3

/-- The first sixteen schedule words of one 64-byte block. -/
def initWords : List Nat → List Nat
  | b0 :: b1 :: b2 :: b3 :: rest => wordOfBytes b0 b1 b2 b3 :: initWords rest
  | _ => []

/-- Extend the message schedule by `n` further words. -/
def extendWords (ws : List Nat) : Nat → List Nat
  | 0 => ws
  | k + 1 =>
    let i := ws.length
    let w := w32 (smallSigma1 (ws.getD (i - 2) 0) + ws.getD (i - 7) 0 +
      smallSigma0 (ws.getD (i - 15) 0) + ws.getD (i - 16) 0)
    extendWords (ws ++ [w]) k

/-- One SHA-256 compression round, fed a (round constant, schedule word) pair. -/
def compressStep (st : Hash8) (kw : Nat × Nat) : Hash8 :=
  let ch := (st.e &&& st.f) ^^^ ((4294967295 ^^^ st.e) &&& st.g)
  let t1 := w32 (st.h + bigSigma1 st.e + ch + kw.1 + kw.2)
  let maj := (st.a &&& st.b) ^^^ (st.a &&& st.c) ^^^ (st.b &&& st.c)
  let t2 := w32 (bigSigma0 st.a + maj)
  ⟨w32 (t1 + t2), st.a, st.b, st.c, w32 (st.d + t1), st.e, st.f, st.g⟩

/-- Compression of one padded 64-byte block into the running state. -/
def processBlock (st : Hash8) (block : List Nat) : Hash8 :=
  let ws := extendWords (initWords block) 48
  let r := (sha256K.zip ws).foldl compressStep st
  ⟨w32 (st.a + r.a), w32 (st.b + r.b), w32 (st.c + r.c), w32 (st.d + r.d),
   w32 (st.e + r.e), w32 (st.f + r.f), w32 (st.g + r.g), w32 (st.h + r.h)⟩

/-- SHA-256 padding: `0x80`, zeros to 56 mod 64, then the 64-bit big-endian
bit length. -/
def sha256Pad (msg : List Nat) : List Nat :=
  let L := msg.length
  let bitLen := 8 * L
  msg ++ 128 :: List.replicate ((119 - L % 64) % 64) 0 ++
    [(bitLen >>> 56) % 256, (bitLen >>> 48) % 256, (bitLen >>> 40) % 256,
     (bitLen >>> 32) % 256, (bitLen >>> 24) % 256, (bitLen >>> 16) % 256,
     (bitLen >>> 8) % 256, bitLen % 256]

/-- Split a byte list into 64-byte blocks. -/
def chunks64 (l : List Nat) : List (List Nat) :=
  if l = [] then [] else l.take 64 :: chunks64 (l.drop 64)
termination_by l.length
decreasing_by
  simp only [List.length_drop]
  cases l with
  | nil => simp_all
  | cons a t => simp; omega

/-- SHA-256 of a byte list. -/
def sha256 (msg : List Nat) : Hash8 :=
  (chunks64 (sha256Pad msg)).foldl processBlock sha256H0

/-- Big-endian bytes of one 32-bit word. -/
def wordBytes (w : Nat) : List Nat :=
  [(w >>> 24) % 256, (w >>> 16) % 256, (w >>> 8) % 256, w % 256]

/-- The 32 digest bytes of a final state. -/
def digestBytes (st : Hash8) : List Nat :=
  wordBytes st.a ++ wordBytes st.b ++ wordBytes st.c ++ wordBytes st.d ++
    wordBytes st.e ++ wordBytes st.f ++ wordBytes st.g ++ wordBytes st.h

/-- One lowercase hex digit (code point) for a value below 16. -/
def hexDigit (n : Nat) : Nat := if n < 10 then 48 + n else 87 + n

/-- Lowercase hex rendering of a byte list, two digits per byte. -/
def toHex : List Nat → Str
  | [] => []
  | b :: bs => hexDigit (b / 16) :: hexDigit (b % 16) :: toHex bs

/-- `hashlib.sha256(bytes).hexdigest()`. -/
def sha256hex (msg : List Nat) : Str := toHex (digestBytes (sha256 msg))

/-- UTF-8 encoding of one code point. -/
def utf8Bytes (c : Nat) : List Nat :=
  if c < 128 then [c]
  else if c < 2048 then [192 ||| (c >>> 6), 128 ||| (c &&& 63)]
  else if c < 65536 then
    [224 ||| (c >>> 12), 128 ||| ((c >>> 6) &&& 63), 128 ||| (c &&& 63)]
  else
    [240 ||| (c >>> 18), 128 ||| ((c >>> 12) &&& 63),
     128 ||| ((c >>> 6) &&& 63), 128 ||| (c &&& 63)]

/-- `str.encode("utf-8")`. -/
def utf8Str (s : Str) : List Nat := (s.map utf8Bytes).flatten

/-- `compute_quote_hash` (models.py lines 9-17): normalize minimally and
return the sha256 hex digest of `"{norm_text}|{norm_author}"`. -/
def compute_quote_hash (text : Str) (author_name : Option Str) : Str :=
  sha256hex (utf8Str (normText text ++ 124 :: normAuthor author_name))

/-! ### URLs (simplified model of `urllib.parse`) -/

/-- Split a URL at its "://" marker: the part up to and including the marker,
and the rest.  `none` when the URL carries no scheme marker. -/
def afterScheme : Str → Option (Str × Str)
  | [] => none
  | 58 :: 47 :: 47 :: rest => some ([58, 47, 47], rest)
  | c :: rest => (afterScheme rest).map (fun p => (c :: p.1, p.2))

/-- Scheme and authority of a URL: everything before the path. -/
def urlRoot (u : Str) : Str :=
  match afterScheme u with
  | some (pre, rest) => pre ++ rest.takeWhile (fun c => c != 47)
  | none => []

/-- `urlparse(u).path`, simplified: the part of the URL from the first "/"
after the authority. -/
def urlPath (u : Str) : Str :=
  match afterScheme u with
  | some (_, rest) => rest.dropWhile (fun c => c != 47)
  | none => u

/-- Simplified model of `urllib.parse.urljoin(base, href)`: an href carrying
its own scheme is kept as is, any other href is resolved as an absolute path
against the root of `base`. -/
def urljoin (base href : Str) : Str :=
  if (afterScheme href).isSome then href else urlRoot base ++ href

/-! ### Data model (scraper_api/models.py) -/

/-- `ScrapeJob.Status` (models.py lines 66-71). -/
inductive Status
  | PENDING
  | RUNNING
  | SUCCESS
  | PARTIAL
  | FAILED
deriving DecidableEq, Repr

/-- The `ScrapeJob` row: status, timestamps and the three counters
(models.py lines 61-84).  Counters are Django `IntegerField`s, hence `Int`;
timestamps are abstract instants. -/
structure ScrapeJob where
  status : Status
  started_at : Option Nat
  finished_at : Option Nat
  quotes_fetched : Int
  quotes_saved : Int
  errors_count : Int
deriving DecidableEq, Repr

/-- `ScrapeJob.mark_running` (models.py lines 86-89). -/
def mark_running (now : Nat) (j : ScrapeJob) : ScrapeJob :=
  { j with status := .RUNNING, started_at := some now }

/-- `ScrapeJob.mark_finished` (models.py lines 91-108): set the finish time
and derive the terminal status from `success` and the counters. -/
def mark_finished (now : Nat) (success : Bool) (j : ScrapeJob) : ScrapeJob :=
  let j := { j with finished_at := some now }
  if !success then { j with status := .FAILED }
  else if j.errors_count > 0 ∧ j.quotes_saved > 0 then { j with status := .PARTIAL }
  else if j.quotes_saved > 0 then { j with status := .SUCCESS }
  else { j with status := .FAILED }

/-- `ScrapeJob.increment_counters` (models.py lines 110-121): the sequential
semantics of the atomic read-modify-write counter update. -/
def increment_counters (j : ScrapeJob) (fetched saved errors : Int) : ScrapeJob :=
  { j with
    quotes_fetched := j.quotes_fetched + fetched,
    quotes_saved := j.quotes_saved + saved,
    errors_count := j.errors_count + errors }

/-- The `Quote` row (models.py lines 141-159): text, nullable author
reference (by unique author name), source URL and the unique content hash. -/
structure Quote where
  text : Str
  author : Option Str
  source_url : Option Str
  hash : Str
deriving DecidableEq, Repr

/-- `Quote.save` (models.py lines 161-166): backfill the hash from the text
and the linked author's name (empty string when the reference is null)
whenever it is unset, then store. -/
def quote_save (q : Quote) : Quote :=
  if q.hash = [] then
    let author_name := match q.author with
      | some a => a
      | none => []
    { q with hash := compute_quote_hash q.text (some author_name) }
  else q

/-- A `ScrapeError` row (models.py lines 127-138). -/
structure ScrapeError where
  url : Option Str
  error_type : Str
  message : Str
deriving DecidableEq, Repr

/-- The relational store visible to the crawl: author names (unique),
quote rows and error rows, each in insertion order. -/
structure DB where
  authors : List Str
  quotes : List Quote
  scrape_errors : List ScrapeError
deriving DecidableEq, Repr

/-- `Quote.objects.filter(hash=h).exists()`. -/
def hashExists (db : DB) (h : Str) : Bool := db.quotes.any (fun q => q.hash == h)

/-- `Author.objects.get_or_create(name=name)` (exact-name match). -/
def get_or_create_author (db : DB) (name : Str) : DB :=
  if db.authors.any (fun a => a == name) then db
  else { db with authors := db.authors ++ [name] }

/-- The `ScrapeSite` configuration read by the crawl (models.py lines
29-46).  An empty selector string models the blank/unset selector. -/
structure ScrapeSite where
  base_url : Str
  start_path : Str
  quote_selector : Str
  author_selector : Str
  pagination_selector : Str
  max_pages : Nat
  rate_limit_ms : Nat
deriving DecidableEq, Repr

/-! ### The crawl orchestrator (scraper_api/tasks.py, `scrape_site`)

BeautifulSoup is abstracted as an oracle: a fetched page carries the results
of the selector queries the task performs.  Failure injection mirrors the
ways the Python can raise: `Fetch.netErr` for any exception inside the
`requests.get`/`raise_for_status` guard, `Fetch.fatalErr` for an exception
while interpreting the fetched document (outside the per-candidate guard),
`Candidate.raises` for a per-candidate extraction/persistence exception, and
`Candidate.concurrent` for a row committed by a concurrent writer between the
hash existence pre-check and `Quote.objects.create`. -/

/-- One quote node: its visible text, the text of
`qnode.select_one(site.author_selector)` when that query finds a match, and
the two failure injections described above. -/
structure Candidate where
  text : Str
  authorInside : Option Str
  raises : Option Str
  concurrent : Option (Str × Option Str)
deriving DecidableEq, Repr

/-- One fetched page: the quote nodes, the texts of
`soup.select(site.author_selector)`, the href of the configured pagination
selector's first match, and the href of the `a[rel=next]`-style fallback. -/
structure Page where
  quoteNodes : List Candidate
  authorNodes : List Str
  pagHref : Option Str
  fallbackHref : Option Str
deriving DecidableEq, Repr

/-- Result of fetching one URL. -/
inductive Fetch
  | ok (p : Page)
  | netErr (msg : Str)
  | fatalErr (msg : Str)
deriving DecidableEq, Repr

/-- The web as seen by the job: identical content on every fetch of a URL. -/
def World := Str → Fetch

/-- The author reference stored on a created quote: `None` unless the
resolved author name is truthy (tasks.py lines 99-101). -/
def authorRefOf (a : Option Str) : Option Str :=
  match a with
  | some s => if s = [] then none else some s
  | none => none

/-- Author resolution for the quote node at index `i` (tasks.py lines
88-95): positional pairing against the independently selected author nodes
first, else a match inside the quote node's own subtree, else none. -/
def resolveAuthorName (site : ScrapeSite) (page : Page) (i : Nat) (c : Candidate) :
    Option Str :=
  let author_nodes := if site.author_selector ≠ [] then page.authorNodes else []
  if author_nodes ≠ [] ∧ i < author_nodes.length then some (author_nodes.getD i [])
  else if site.author_selector ≠ [] then c.authorInside
  else none

/-- A concurrent writer racing the crawl between the existence pre-check and
`Quote.objects.create`: it runs the same persistence path on its own
(text, author_name) pair, so its row's hash is `compute_quote_hash` of that
pair and the row only lands when the hash is not yet stored (the storage
unique constraint). -/
def concurrentWrite (db : DB) (w : Option (Str × Option Str)) : DB :=
  match w with
  | none => db
  | some (t, a) =>
    let h := compute_quote_hash t a
    if hashExists db h then db
    else { db with quotes := db.quotes ++ [⟨t, authorRefOf a, none, h⟩] }

/-- `if author_name: author, _ = Author.objects.get_or_create(...)` (tasks.py
lines 99-101): the author row committed inside the candidate transaction. -/
def authorStep (db : DB) (an : Option Str) : DB :=
  match an with
  | some s => if s ≠ [] then get_or_create_author db s else db
  | none => db

/-- Processing of one enumerated quote node (tasks.py lines 85-116): the
guarded extraction and the atomic author/quote transaction, threading
(database, saved delta, errors delta).  An injected exception is recorded as
a "parse" `ScrapeError`; a hash collision raised by the create past the
pre-check rolls the transaction back (undoing the author get-or-create) and
is caught by the same per-candidate guard. -/
def processCandidate (site : ScrapeSite) (page : Page) (url : Str)
    (st : DB × Nat × Nat) (ic : Nat × Candidate) : DB × Nat × Nat :=
  let db := st.1
  let saved := st.2.1
  let errors := st.2.2
  match ic.2.raises with
  | some msg =>
    ({ db with scrape_errors := db.scrape_errors ++ [⟨some url, strOf "parse", msg⟩] },
      saved, errors + 1)
  | none =>
    let author_name := resolveAuthorName site page ic.1 ic.2
    let dbA := authorStep db author_name
    let h := compute_quote_hash ic.2.text author_name
    if hashExists dbA h then
      (concurrentWrite dbA ic.2.concurrent, saved, errors)
    else
      let dbC := concurrentWrite dbA ic.2.concurrent
      if hashExists dbC h then
        let dbR := concurrentWrite db ic.2.concurrent
        ({ dbR with scrape_errors :=
            dbR.scrape_errors ++ [⟨some url, strOf "parse", strOf "IntegrityError"⟩] },
          saved, errors + 1)
      else
        ({ dbC with quotes := dbC.quotes ++ [⟨ic.2.text, authorRefOf author_name, some url, h⟩] },
          saved + 1, errors)

/-- The in-flight state of the page loop: the store, the job row, the three
in-memory deltas and the pending URL. -/
structure LoopSt where
  db : DB
  job : ScrapeJob
  fetched : Nat
  saved : Nat
  errors : Nat
  next_url : Option Str
  pages_scraped : List Str
deriving DecidableEq, Repr

/-- Pagination discovery (tasks.py lines 125-138): the configured selector's
href when a pagination selector is set, else the `a[rel=next]`/next-text
fallback, resolved absolutely against the site's base URL. -/
def discoverNext (site : ScrapeSite) (page : Page) : Option Str :=
  if site.pagination_selector ≠ [] then
    match page.pagHref with
    | some href => some (urljoin site.base_url href)
    | none => none
  else
    match page.fallbackHref with
    | some href => some (urljoin site.base_url href)
    | none => none

/-- Lines 140-143 of tasks.py: the same-page safeguard.  The condition
compares `urlparse(next_url).path` with itself and the body is `pass`, so
whichever branch is taken the pending URL comes back unchanged. -/
def sameUrlGuard (next_url : Option Str) : Option Str :=
  match next_url with
  | some u => if urlPath u = urlPath u then some u else some u
  | none => none

/-- The body of one successful page iteration (tasks.py lines 76-143):
count the fetch, process the candidates, flush the deltas via
`increment_counters`, reset them, and decide the next URL (through the
lines 140-143 safeguard). -/
def pageStep (site : ScrapeSite) (page : Page) (url : Str) (st : LoopSt) : LoopSt :=
  let st1 := { st with fetched := st.fetched + 1,
                       pages_scraped := st.pages_scraped ++ [url] }
  let r := page.quoteNodes.enum.foldl (processCandidate site page url)
    (st1.db, st1.saved, st1.errors)
  { db := r.1,
    job := increment_counters st1.job (st1.fetched : Int) (r.2.1 : Int) (r.2.2 : Int),
    fetched := 0, saved := 0, errors := 0,
    next_url := sameUrlGuard (discoverNext site page),
    pages_scraped := st1.pages_scraped }

/-- The `for page_index in range(site.max_pages)` loop of `scrape_site`
(tasks.py lines 61-143).  `Except.error` is a fatal exception escaping the
loop, carrying the state at the raise point. -/
def runPages (world : World) (site : ScrapeSite) :
    Nat → LoopSt → Except (Str × LoopSt) LoopSt
  | 0, st => .ok st
  | fuel + 1, st =>
    match st.next_url with
    | none => .ok st
    | some url =>
      match world url with
      | .netErr msg =>
        .ok { st with
          errors := st.errors + 1,
          db := { st.db with scrape_errors :=
            st.db.scrape_errors ++ [⟨some url, strOf "network", msg⟩] } }
      | .fatalErr msg =>
        .error (msg, { st with fetched := st.fetched + 1,
                               pages_scraped := st.pages_scraped ++ [url] })
      | .ok page =>
        runPages world site fuel (pageStep site page url st)

/-- What `scrape_site` leaves behind: the store, the finalized job row and
the visited pages. -/
structure RunResult where
  db : DB
  job : ScrapeJob
  pages_scraped : List Str
deriving DecidableEq, Repr

/-- `urljoin(site.base_url, site.start_path or "/")` (tasks.py line 59). -/
def startUrl (site : ScrapeSite) : Str :=
  urljoin site.base_url (if site.start_path = [] then strOf "/" else site.start_path)

/-- The loop state at job start. -/
def initSt (db : DB) (job : ScrapeJob) (site : ScrapeSite) : LoopSt :=
  { db := db, job := job, fetched := 0, saved := 0, errors := 0,
    next_url := some (startUrl site), pages_scraped := [] }

/-- The `scrape_site` task (tasks.py lines 39-157): mark the job running,
drive the page loop, and finalize.  On normal exit the residual deltas are
flushed and the job finished with `success=True`; on a fatal exception a
"fatal" `ScrapeError` is recorded, the residual fetched/saved deltas are
flushed together with a single error count, the job is finished with
`success=False` and the exception propagates (`Except.error`). -/
def scrape_site (world : World) (site : ScrapeSite) (db : DB) (job : ScrapeJob)
    (t_start t_finish : Nat) : Except (Str × RunResult) RunResult :=
  let job0 := mark_running t_start job
  match runPages world site site.max_pages (initSt db job0 site) with
  | .ok st =>
    let j1 := increment_counters st.job (st.fetched : Int) (st.saved : Int) (st.errors : Int)
    .ok ⟨st.db, mark_finished t_finish true j1, st.pages_scraped⟩
  | .error (msg, st) =>
    let db1 := { st.db with scrape_errors :=
      st.db.scrape_errors ++ [⟨none, strOf "fatal", msg⟩] }
    let j1 := increment_counters st.job (st.fetched : Int) (st.saved : Int) 1
    .error (msg, ⟨db1, mark_finished t_finish false j1, st.pages_scraped⟩)

/-- The page body with the lines 140-143 safeguard removed: the pending URL
is taken directly from the discovered pagination target. -/
def pageStepNoGuard (site : ScrapeSite) (page : Page) (url : Str) (st : LoopSt) : LoopSt :=
  let st1 := { st with fetched := st.fetched + 1,
                       pages_scraped := st.pages_scraped ++ [url] }
  let r := page.quoteNodes.enum.foldl (processCandidate site page url)
    (st1.db, st1.saved, st1.errors)
  { db := r.1,
    job := increment_counters st1.job (st1.fetched : Int) (r.2.1 : Int) (r.2.2 : Int),
    fetched := 0, saved := 0, errors := 0,
    next_url := discoverNext site page,
    pages_scraped := st1.pages_scraped }

/-- The page loop with the lines 140-143 safeguard removed, for the
refinement comparison of claim C9. -/
def runPagesNoGuard (world : World) (site : ScrapeSite) :
    Nat → LoopSt → Except (Str × LoopSt) LoopSt
  | 0, st => .ok st
  | fuel + 1, st =>
    match st.next_url with
    | none => .ok st
    | some url =>
      match world url with
      | .netErr msg =>
        .ok { st with
          errors := st.errors + 1,
          db := { st.db with scrape_errors :=
            st.db.scrape_errors ++ [⟨some url, strOf "network", msg⟩] } }
      | .fatalErr msg =>
        .error (msg, { st with fetched := st.fetched + 1,
                               pages_scraped := st.pages_scraped ++ [url] })
      | .ok page =>
        runPagesNoGuard world site fuel (pageStepNoGuard site page url st)

/-- `scrape_site` built on the guard-free loop. -/
def scrape_site_noguard (world : World) (site : ScrapeSite) (db : DB) (job : ScrapeJob)
    (t_start t_finish : Nat) : Except (Str × RunResult) RunResult :=
  let job0 := mark_running t_start job
  match runPagesNoGuard world site site.max_pages (initSt db job0 site) with
  | .ok st =>
    let j1 := increment_counters st.job (st.fetched : Int) (st.saved : Int) (st.errors : Int)
    .ok ⟨st.db, mark_finished t_finish true j1, st.pages_scraped⟩
  | .error (msg, st) =>
    let db1 := { st.db with scrape_errors :=
      st.db.scrape_errors ++ [⟨none, strOf "fatal", msg⟩] }
    let j1 := increment_counters st.job (st.fetched : Int) (st.saved : Int) 1
    .error (msg, ⟨db1, mark_finished t_finish false j1, st.pages_scraped⟩)

/-- `QuoteSerializer.create` (serializers.py lines 72-88): the row is built
with its hash unset (the field is read-only in the serializer) and
`Quote.save` backfills it before storing. -/
def serializer_create_quote (text : Str) (author : Option Str)
    (source_url : Option Str) : Quote :=
  quote_save { text := text, author := author, source_url := source_url, hash := [] }

/-- The loop state a `runPages` call ends in, whether it returns or raises. -/
def endSt : Except (Str × LoopSt) LoopSt → LoopSt
  | Except.ok st => st
  | Except.error p => p.2

/-- The run result a `scrape_site` call leaves behind, whether it returns or
raises. -/
def resultOf : Except (Str × RunResult) RunResult → RunResult
  | Except.ok r => r
  | Except.error p => p.2

/-! ### Predicates used by the claims -/

/-- A word produced by `splitWs`: nonempty and whitespace-free. -/
def goodWord (w : Str) : Prop := w ≠ [] ∧ ∀ c ∈ w, isSpace c = false

/-- A lowercase hex digit code point. -/
def hexLowerChar (c : Nat) : Prop := (48 ≤ c ∧ c ≤ 57) ∨ (97 ≤ c ∧ c ≤ 102)

/-- A 64-character lowercase hex string. -/
def isHex64 (s : Str) : Prop := s.length = 64 ∧ ∀ c ∈ s, hexLowerChar c

/-- A stored quote row whose hash field is `compute_quote_hash` of its own
content. -/
def rowHashOk (q : Quote) : Prop := q.hash = compute_quote_hash q.text q.author

/-- No two rows of the table share a hash (the storage unique constraint). -/
def hashUnique (l : List Quote) : Prop := l.Pairwise (fun a b => a.hash ≠ b.hash)

/-- The normalized content pair of a stored quote row. -/
def normPair (q : Quote) : Str × Str := (normText q.text, normAuthor q.author)

/-- A candidate with no injected failure: no exception, no concurrent
writer. -/
def cleanCandidate (c : Candidate) : Prop := c.raises = none ∧ c.concurrent = none

/-- A page all of whose candidates are clean. -/
def cleanPage (p : Page) : Prop := ∀ c ∈ p.quoteNodes, cleanCandidate c

/-- A world whose successfully fetched pages are all clean. -/
def cleanWorld (w : World) : Prop := ∀ u p, w u = Fetch.ok p → cleanPage p

/-! ### Concrete data for witnesses and counterexamples -/

/-- An empty store. -/
def dbEmpty : DB := DB.mk [] [] []

/-- A freshly created job row (model defaults, counters zero). -/
def jobZero : ScrapeJob := ScrapeJob.mk Status.PENDING none none 0 0 0

/-- A site configuration with all three selectors set. -/
def siteW : ScrapeSite :=
  ScrapeSite.mk (strOf "http://q.com") (strOf "/") (strOf "span.text")
    (strOf "small.author") (strOf "li.next a") 3 500

/-- A world where every fetch times out. -/
def worldNet : World := fun _ => Fetch.netErr (strOf "timeout")

/-- A world whose first page raises outside the per-candidate guard while
its document is interpreted. -/
def worldFatal : World := fun u =>
  if u = strOf "http://q.com/" then Fetch.fatalErr (strOf "boom")
  else Fetch.netErr (strOf "404")

/-- A candidate hit by a concurrent writer that inserts the same normalized
content between the existence pre-check and the create. -/
def cRace : Candidate :=
  Candidate.mk (strOf "Quote one") none none (some (strOf "Quote one", none))

/-- The single page of the duplicate-race scenario. -/
def pRace : Page := Page.mk [cRace] [] none none

/-- The world of the duplicate-race scenario. -/
def worldRace : World := fun u =>
  if u = strOf "http://q.com/" then Fetch.ok pRace
  else Fetch.netErr (strOf "404")

/-- A page whose pagination link resolves to the page's own URL. -/
def pSelf : Page := Page.mk [] [] (some (strOf "http://q.com/")) none

/-- The world of the self-link scenario. -/
def worldSelf : World := fun _ => Fetch.ok pSelf

/-- The first run of the rerun witness over `worldNet`. -/
def runNet1 : RunResult := resultOf (scrape_site worldNet siteW dbEmpty jobZero 0 1)

/-- The second run of the rerun witness, from the first run's state. -/
def runNet2 : RunResult := resultOf (scrape_site worldNet siteW runNet1.db runNet1.job 3 4)

/-! ## Support lemmas: characters and normalization -/

theorem isSpace_iff {c : Nat} : isSpace c = true ↔
    (9 ≤ c ∧ c ≤ 13) ∨ c = 32 ∨ c = 133 ∨ c = 160 ∨ c = 5760 ∨
    (8192 ≤ c ∧ c ≤ 8202) ∨ c = 8232 ∨ c = 8233 ∨ c = 8239 ∨ c = 8287 ∨
    c = 12288 := by
  simp only [isSpace, Bool.or_eq_true, Bool.and_eq_true, decide_eq_true_eq, beq_iff_eq]
  tauto

theorem lowerChar_eq_of_upper {c : Nat} (h : 65 ≤ c ∧ c ≤ 90) :
    lowerChar c = c + 32 := if_pos h

theorem lowerChar_eq_of_not {c : Nat} (h : ¬(65 ≤ c ∧ c ≤ 90)) :
    lowerChar c = c := if_neg h

theorem isSpace_lowerChar (c : Nat) : isSpace (lowerChar c) = isSpace c := by
  by_cases h : 65 ≤ c ∧ c ≤ 90
  · rw [lowerChar_eq_of_upper h]
    have h1 : ¬ isSpace (c + 32) = true := by rw [isSpace_iff]; omega
    have h2 : ¬ isSpace c = true := by rw [isSpace_iff]; omega
    rw [Bool.not_eq_true] at h1 h2
    rw [h1, h2]
  · rw [lowerChar_eq_of_not h]

theorem notSpace_lowerChar (c : Nat) : notSpace (lowerChar c) = notSpace c := by
  simp [notSpace, isSpace_lowerChar]

theorem lowerChar_idem (c : Nat) : lowerChar (lowerChar c) = lowerChar c := by
  by_cases h : 65 ≤ c ∧ c ≤ 90
  · rw [lowerChar_eq_of_upper h, lowerChar_eq_of_not (by omega)]
  · rw [lowerChar_eq_of_not h, lowerChar_eq_of_not h]

theorem lowerStr_idem (s : Str) : lowerStr (lowerStr s) = lowerStr s := by
  simp only [lowerStr, List.map_map]
  exact List.map_congr_left fun a _ => lowerChar_idem a

theorem lowerStr_reverse (s : Str) : (lowerStr s).reverse = lowerStr s.reverse := by
  simp [lowerStr, List.map_reverse]

theorem takeWhile_congr₂ {p q : Nat → Bool} (h : ∀ c, p c = q c) (l : Str) :
    l.takeWhile p = l.takeWhile q := by
  induction l with
  | nil => rfl
  | cons a t ih => rw [List.takeWhile_cons, List.takeWhile_cons, h a, ih]

theorem dropWhile_congr₂ {p q : Nat → Bool} (h : ∀ c, p c = q c) (l : Str) :
    l.dropWhile p = l.dropWhile q := by
  induction l with
  | nil => rfl
  | cons a t ih => rw [List.dropWhile_cons, List.dropWhile_cons, h a, ih]

theorem dropWhile_isSpace_lowerStr (s : Str) :
    (lowerStr s).dropWhile isSpace = lowerStr (s.dropWhile isSpace) := by
  rw [lowerStr, List.dropWhile_map]
  exact congrArg _ (dropWhile_congr₂ (fun c => isSpace_lowerChar c) s)

theorem takeWhile_notSpace_lowerStr (s : Str) :
    (lowerStr s).takeWhile notSpace = lowerStr (s.takeWhile notSpace) := by
  rw [lowerStr, List.takeWhile_map]
  exact congrArg _ (takeWhile_congr₂ (fun c => notSpace_lowerChar c) s)

theorem dropWhile_notSpace_lowerStr (s : Str) :
    (lowerStr s).dropWhile notSpace = lowerStr (s.dropWhile notSpace) := by
  rw [lowerStr, List.dropWhile_map]
  exact congrArg _ (dropWhile_congr₂ (fun c => notSpace_lowerChar c) s)

theorem stripStr_lowerStr (s : Str) : stripStr (lowerStr s) = lowerStr (stripStr s) := by
  simp only [stripStr]
  rw [dropWhile_isSpace_lowerStr, lowerStr_reverse, dropWhile_isSpace_lowerStr,
    lowerStr_reverse]

theorem dropWhile_idem₂ (p : Nat → Bool) (l : Str) :
    (l.dropWhile p).dropWhile p = l.dropWhile p := by
  induction l with
  | nil => rfl
  | cons a t ih =>
    rw [List.dropWhile_cons]
    split
    · exact ih
    · next h => rw [List.dropWhile_cons, if_neg h]

theorem head?_dropWhile_false (p : Nat → Bool) (l : Str) :
    ∀ c, (l.dropWhile p).head? = some c → p c = false := by
  induction l with
  | nil => intro c h; simp at h
  | cons a t ih =>
    intro c h
    rw [List.dropWhile_cons] at h
    by_cases ha : p a = true
    · rw [if_pos ha] at h; exact ih c h
    · rw [if_neg ha] at h
      simp only [List.head?_cons, Option.some.injEq] at h
      subst h
      rwa [Bool.not_eq_true] at ha

theorem dropWhile_eq_self_head {p : Nat → Bool} {l : Str}
    (h : ∀ c, l.head? = some c → p c = false) : l.dropWhile p = l := by
  cases l with
  | nil => rfl
  | cons a t => rw [List.dropWhile_cons, if_neg (by simp [h a rfl])]

theorem stripStr_idem (s : Str) : stripStr (stripStr s) = stripStr s := by
  have hhead : ∀ c, (stripStr s).head? = some c → isSpace c = false := by
    intro c hc
    obtain ⟨t, ht⟩ := List.dropWhile_suffix (l := (s.dropWhile isSpace).reverse) isSpace
    have hu : s.dropWhile isSpace =
        ((s.dropWhile isSpace).reverse.dropWhile isSpace).reverse ++ t.reverse := by
      have h2 := congrArg List.reverse ht
      simpa using h2.symm
    simp only [stripStr] at hc
    apply head?_dropWhile_false isSpace s c
    rw [hu]
    cases hr : ((s.dropWhile isSpace).reverse.dropWhile isSpace).reverse with
    | nil => rw [hr] at hc; simp at hc
    | cons a l₂ => rw [hr] at hc; simpa using hc
  have h1 : (stripStr s).dropWhile isSpace = stripStr s := dropWhile_eq_self_head hhead
  have h2 : (stripStr s).reverse = (s.dropWhile isSpace).reverse.dropWhile isSpace := by
    simp only [stripStr, List.reverse_reverse]
  show ((stripStr s |>.dropWhile isSpace).reverse.dropWhile isSpace).reverse = stripStr s
  rw [h1, h2, dropWhile_idem₂, ← h2, List.reverse_reverse]

theorem splitWs_nil : splitWs [] = [] := by rw [splitWs]

theorem splitWs_cons_eq (c : Nat) (rest : Str) :
    splitWs (c :: rest) = if isSpace c then splitWs rest
      else (c :: rest.takeWhile notSpace) :: splitWs (rest.dropWhile notSpace) := by
  rw [splitWs]

theorem takeWhile_append_all {p : Nat → Bool} {l m : Str} (h : ∀ x ∈ l, p x = true) :
    (l ++ m).takeWhile p = l ++ m.takeWhile p := by
  induction l with
  | nil => rfl
  | cons a t ih =>
    rw [List.cons_append, List.takeWhile_cons, if_pos (h a (by simp)),
      ih (fun x hx => h x (by simp [hx]))]
    rfl

theorem dropWhile_append_all {p : Nat → Bool} {l m : Str} (h : ∀ x ∈ l, p x = true) :
    (l ++ m).dropWhile p = m.dropWhile p := by
  induction l with
  | nil => rfl
  | cons a t ih =>
    rw [List.cons_append, List.dropWhile_cons, if_pos (h a (by simp))]
    exact ih (fun x hx => h x (by simp [hx]))

theorem takeWhile_eq_self_all {p : Nat → Bool} {l : Str} (h : ∀ x ∈ l, p x = true) :
    l.takeWhile p = l := by
  have := takeWhile_append_all (m := []) h
  simpa using this

theorem dropWhile_eq_nil_all {p : Nat → Bool} {l : Str} (h : ∀ x ∈ l, p x = true) :
    l.dropWhile p = [] := by
  have := dropWhile_append_all (m := []) h
  simpa using this

theorem takeWhile_append_headFalse {p : Nat → Bool} {l m : Str}
    (h : ∀ c, m.head? = some c → p c = false) :
    (l ++ m).takeWhile p = l.takeWhile p := by
  induction l with
  | nil =>
    rw [List.nil_append]
    cases m with
    | nil => rfl
    | cons b t => rw [List.takeWhile_cons, if_neg (by simp [h b rfl])]; rfl
  | cons a t ih =>
    rw [List.cons_append, List.takeWhile_cons, List.takeWhile_cons]
    cases hpa : p a
    · simp
    · simp [ih]

theorem dropWhile_append_headFalse {p : Nat → Bool} {l m : Str}
    (h : ∀ c, m.head? = some c → p c = false) :
    (l ++ m).dropWhile p = l.dropWhile p ++ m := by
  induction l with
  | nil => rw [List.nil_append, List.dropWhile_nil, List.nil_append]
           exact dropWhile_eq_self_head h
  | cons a t ih =>
    rw [List.cons_append, List.dropWhile_cons, List.dropWhile_cons]
    cases hpa : p a
    · simp
    · simp [ih]

theorem splitWs_lowerStr (s : Str) : splitWs (lowerStr s) = (splitWs s).map lowerStr := by
  induction s using splitWs.induct with
  | case1 => simp [lowerStr, splitWs_nil]
  | case2 c rest h ih =>
    rw [lowerStr, List.map_cons, splitWs_cons_eq, splitWs_cons_eq,
      isSpace_lowerChar, if_pos h, if_pos h]
    exact ih
  | case3 c rest h ih =>
    rw [lowerStr, List.map_cons, splitWs_cons_eq, splitWs_cons_eq,
      isSpace_lowerChar, if_neg h, if_neg h]
    rw [List.map_cons]
    rw [show List.map lowerChar rest = lowerStr rest from rfl]
    rw [takeWhile_notSpace_lowerStr, dropWhile_notSpace_lowerStr, ih]
    rfl

theorem splitWs_space {s : Str} (h : ∀ c ∈ s, isSpace c = true) : splitWs s = [] := by
  induction s with
  | nil => exact splitWs_nil
  | cons a t ih =>
    rw [splitWs_cons_eq, if_pos (h a (by simp))]
    exact ih (fun c hc => h c (by simp [hc]))

theorem splitWs_append_space (sp : Str) (hsp : ∀ c ∈ sp, isSpace c = true) (s : Str) :
    splitWs (s ++ sp) = splitWs s := by
  have hhead : ∀ c, sp.head? = some c → notSpace c = false := by
    intro c hc
    have hm : c ∈ sp := by
      cases sp with
      | nil => simp at hc
      | cons b t => simp at hc; simp [hc]
    simp [notSpace, hsp c hm]
  induction s using splitWs.induct with
  | case1 => rw [List.nil_append, splitWs_nil]; exact splitWs_space hsp
  | case2 c rest h ih =>
    rw [List.cons_append, splitWs_cons_eq, if_pos h, splitWs_cons_eq, if_pos h]
    exact ih
  | case3 c rest h ih =>
    rw [List.cons_append, splitWs_cons_eq, if_neg h, splitWs_cons_eq, if_neg h]
    rw [takeWhile_append_headFalse hhead, dropWhile_append_headFalse hhead]
    rw [ih]

theorem splitWs_dropWhile (s : Str) : splitWs (s.dropWhile isSpace) = splitWs s := by
  induction s with
  | nil => rfl
  | cons a t ih =>
    rw [List.dropWhile_cons]
    by_cases ha : isSpace a = true
    · rw [if_pos ha, ih, splitWs_cons_eq, if_pos ha]
    · rw [if_neg ha]

theorem splitWs_stripStr (s : Str) : splitWs (stripStr s) = splitWs s := by
  obtain ⟨t, ht⟩ := List.dropWhile_suffix (l := (s.dropWhile isSpace).reverse) isSpace
  have hu : s.dropWhile isSpace = stripStr s ++ t.reverse := by
    have h2 := congrArg List.reverse ht
    simp only [stripStr]
    simpa using h2.symm
  have hts : ∀ c ∈ t.reverse, isSpace c = true := by
    have hteq : t = (s.dropWhile isSpace).reverse.takeWhile isSpace := by
      have hsplit := List.takeWhile_append_dropWhile isSpace (s.dropWhile isSpace).reverse
      exact List.append_cancel_right (ht.trans hsplit.symm)
    intro c hc
    rw [List.mem_reverse, hteq] at hc
    exact List.mem_takeWhile_imp hc
  calc splitWs (stripStr s) = splitWs (stripStr s ++ t.reverse) :=
        (splitWs_append_space t.reverse hts (stripStr s)).symm
    _ = splitWs (s.dropWhile isSpace) := by rw [← hu]
    _ = splitWs s := splitWs_dropWhile s

theorem splitWs_good (s : Str) : ∀ w ∈ splitWs s, goodWord w := by
  induction s using splitWs.induct with
  | case1 => rw [splitWs_nil]; intro w hw; simp at hw
  | case2 c rest h ih => rw [splitWs_cons_eq, if_pos h]; exact ih
  | case3 c rest h ih =>
    rw [splitWs_cons_eq, if_neg h]
    intro w hw
    rcases List.mem_cons.mp hw with hw | hw
    · subst hw
      refine ⟨by simp, ?_⟩
      intro x hx
      rcases List.mem_cons.mp hx with hx | hx
      · subst hx; rwa [Bool.not_eq_true] at h
      · have := List.mem_takeWhile_imp hx
        simpa [notSpace] using this
    · exact ih w hw

theorem joinSpace_cons₂ (w w' : Str) (ws : List Str) :
    joinSpace (w :: w' :: ws) = w ++ 32 :: joinSpace (w' :: ws) := rfl

theorem splitWs_joinSpace (ps : List Str) (h : ∀ w ∈ ps, goodWord w) :
    splitWs (joinSpace ps) = ps := by
  induction ps with
  | nil => exact splitWs_nil
  | cons w ws ih =>
    obtain ⟨hne, hns⟩ := h w (by simp)
    obtain ⟨c, tl, rfl⟩ : ∃ c tl, w = c :: tl := by
      cases w with
      | nil => exact absurd rfl hne
      | cons c tl => exact ⟨c, tl, rfl⟩
    have hc : ¬ isSpace c = true := by simp [hns c (by simp)]
    have htl : ∀ x ∈ tl, notSpace x = true := by
      intro x hx; simp [notSpace, hns x (by simp [hx])]
    cases ws with
    | nil =>
      show splitWs (c :: tl) = [c :: tl]
      rw [splitWs_cons_eq, if_neg hc, takeWhile_eq_self_all htl,
        dropWhile_eq_nil_all htl, splitWs_nil]
    | cons w' ws' =>
      rw [joinSpace_cons₂, List.cons_append, splitWs_cons_eq, if_neg hc]
      have h32 : ∀ x, (32 :: joinSpace (w' :: ws')).head? = some x → notSpace x = false := by
        intro x hx
        simp only [List.head?_cons, Option.some.injEq] at hx
        subst hx
        rfl
      rw [takeWhile_append_headFalse h32, takeWhile_eq_self_all htl,
        dropWhile_append_headFalse h32, dropWhile_eq_nil_all htl, List.nil_append,
        splitWs_cons_eq, if_pos (by rfl : isSpace 32 = true),
        ih (fun x hx => h x (by simp [hx]))]

theorem joinSpace_map_lower (ps : List Str) :
    joinSpace (ps.map lowerStr) = lowerStr (joinSpace ps) := by
  induction ps with
  | nil => rfl
  | cons w ws ih =>
    cases ws with
    | nil => rfl
    | cons w' ws' =>
      rw [List.map_cons, List.map_cons, joinSpace_cons₂, ← List.map_cons, ih,
        joinSpace_cons₂]
      show lowerStr w ++ 32 :: lowerStr (joinSpace (w' :: ws')) =
        lowerStr (w ++ 32 :: joinSpace (w' :: ws'))
      simp [lowerStr, lowerChar]

theorem goodWord_lowerStr {w : Str} (h : goodWord w) : goodWord (lowerStr w) := by
  obtain ⟨hne, hns⟩ := h
  constructor
  · simp [lowerStr, hne]
  · intro c hc
    rw [lowerStr, List.mem_map] at hc
    obtain ⟨a, ha, rfl⟩ := hc
    rw [isSpace_lowerChar]
    exact hns a ha

theorem normText_idem (t : Str) : normText (normText t) = normText t := by
  have hgood : ∀ w ∈ splitWs (stripStr t), goodWord w := splitWs_good (stripStr t)
  have hgood₂ : ∀ w ∈ (splitWs (stripStr t)).map lowerStr, goodWord w := by
    intro w hw
    rw [List.mem_map] at hw
    obtain ⟨v, hv, rfl⟩ := hw
    exact goodWord_lowerStr (hgood v hv)
  show lowerStr (joinSpace (splitWs (stripStr (normText t)))) = normText t
  rw [show normText t = lowerStr (joinSpace (splitWs (stripStr t))) from rfl]
  rw [splitWs_stripStr, splitWs_lowerStr, splitWs_joinSpace _ hgood,
    joinSpace_map_lower, lowerStr_idem]

theorem normAuthor_idem (a : Option Str) :
    normAuthor (some (normAuthor a)) = normAuthor a := by
  show lowerStr (stripStr (lowerStr (stripStr (a.getD [])))) =
    lowerStr (stripStr (a.getD []))
  rw [stripStr_lowerStr, stripStr_idem, lowerStr_idem]

/-! ## Support lemmas: the hex digest -/

theorem toHex_length (l : List Nat) : (toHex l).length = 2 * l.length := by
  induction l with
  | nil => rfl
  | cons b bs ih => simp [toHex, ih]; omega

theorem hexLowerChar_hexDigit {n : Nat} (h : n < 16) : hexLowerChar (hexDigit n) := by
  unfold hexDigit hexLowerChar
  split <;> omega

theorem toHex_mem {l : List Nat} (hl : ∀ b ∈ l, b < 256) :
    ∀ c ∈ toHex l, hexLowerChar c := by
  induction l with
  | nil => intro c hc; simp [toHex] at hc
  | cons b bs ih =>
    intro c hc
    simp only [toHex, List.mem_cons] at hc
    have hb : b < 256 := hl b (by simp)
    rcases hc with rfl | rfl | hc
    · exact hexLowerChar_hexDigit (by omega)
    · exact hexLowerChar_hexDigit (by omega)
    · exact ih (fun x hx => hl x (by simp [hx])) c hc

theorem wordBytes_lt (w : Nat) : ∀ b ∈ wordBytes w, b < 256 := by
  intro b hb
  simp only [wordBytes, List.mem_cons, List.not_mem_nil, or_false] at hb
  rcases hb with h | h | h | h <;> omega

theorem digestBytes_lt (st : Hash8) : ∀ b ∈ digestBytes st, b < 256 := by
  intro b hb
  simp only [digestBytes, List.mem_append] at hb
  rcases hb with ((((((hb | hb) | hb) | hb) | hb) | hb) | hb) | hb <;>
    exact wordBytes_lt _ b hb

theorem sha256hex_isHex64 (m : List Nat) : isHex64 (sha256hex m) := by
  constructor
  · rw [sha256hex, toHex_length]
    simp [digestBytes, wordBytes]
  · rw [sha256hex]
    exact toHex_mem (digestBytes_lt _)

/-! ## Support lemmas: the job state machine -/

theorem mark_running_counters (t : Nat) (j : ScrapeJob) :
    (mark_running t j).quotes_fetched = j.quotes_fetched ∧
    (mark_running t j).quotes_saved = j.quotes_saved ∧
    (mark_running t j).errors_count = j.errors_count := by
  simp [mark_running]

theorem mark_finished_counters (t : Nat) (b : Bool) (j : ScrapeJob) :
    (mark_finished t b j).quotes_fetched = j.quotes_fetched ∧
    (mark_finished t b j).quotes_saved = j.quotes_saved ∧
    (mark_finished t b j).errors_count = j.errors_count := by
  simp only [mark_finished]
  split_ifs <;> simp

/-! ## Support lemmas: the crawl orchestrator -/

theorem get_or_create_author_quotes (db : DB) (s : Str) :
    (get_or_create_author db s).quotes = db.quotes := by
  unfold get_or_create_author
  split <;> rfl

theorem get_or_create_author_errors (db : DB) (s : Str) :
    (get_or_create_author db s).scrape_errors = db.scrape_errors := by
  unfold get_or_create_author
  split <;> rfl

theorem hashExists_congr {db db' : DB} (h : db.quotes = db'.quotes) (x : Str) :
    hashExists db x = hashExists db' x := by
  simp [hashExists, h]

theorem hashExists_append {db db' : DB} {t : List Quote} (h : db'.quotes = db.quotes ++ t)
    {x : Str} (hx : hashExists db x = true) : hashExists db' x = true := by
  rw [hashExists] at hx ⊢
  rw [h, List.any_append, hx, Bool.true_or]

theorem hashExists_false_forall {db : DB} {x : Str} (h : hashExists db x = false) :
    ∀ q ∈ db.quotes, q.hash ≠ x := by
  intro q hq
  rw [hashExists, List.any_eq_false] at h
  have := h q hq
  simpa using this

/-- The author get-or-create seen through `processCandidate`'s transaction:
only the author table can change. -/
theorem authorStep_quotes (db : DB) (an : Option Str) :
    (authorStep db an).quotes = db.quotes := by
  unfold authorStep
  cases an with
  | none => rfl
  | some s =>
    simp only
    split
    · exact get_or_create_author_quotes db s
    · rfl

theorem authorStep_errors (db : DB) (an : Option Str) :
    (authorStep db an).scrape_errors = db.scrape_errors := by
  unfold authorStep
  cases an with
  | none => rfl
  | some s =>
    simp only
    split
    · exact get_or_create_author_errors db s
    · rfl

theorem concurrentWrite_none (db : DB) : concurrentWrite db none = db := rfl

theorem concurrentWrite_quotes (db : DB) (wopt : Option (Str × Option Str)) :
    ∃ t, (concurrentWrite db wopt).quotes = db.quotes ++ t := by
  unfold concurrentWrite
  cases wopt with
  | none => exact ⟨[], by simp⟩
  | some p =>
    simp only
    split
    · exact ⟨[], by simp⟩
    · exact ⟨_, rfl⟩

theorem concurrentWrite_errors (db : DB) (wopt : Option (Str × Option Str)) :
    (concurrentWrite db wopt).scrape_errors = db.scrape_errors := by
  unfold concurrentWrite
  cases wopt with
  | none => rfl
  | some p =>
    simp only
    split <;> rfl

/-- After the concurrent writer commits, its hash is stored. -/
theorem concurrentWrite_mem (db : DB) (t : Str) (a : Option Str) :
    hashExists (concurrentWrite db (some (t, a))) (compute_quote_hash t a) = true := by
  unfold concurrentWrite
  simp only
  split
  · assumption
  · simp [hashExists]

/-- A clean candidate (no injected failure) either finds its hash stored and
changes nothing but the author table, or appends exactly its own row; either
way its hash is stored afterwards. -/
theorem processCandidate_clean (site : ScrapeSite) (page : Page) (url : Str)
    (db : DB) (saved errors i : Nat) (ct : Str) (cai : Option Str) :
    hashExists (processCandidate site page url (db, saved, errors)
        (i, ⟨ct, cai, none, none⟩)).1
      (compute_quote_hash ct (resolveAuthorName site page i ⟨ct, cai, none, none⟩)) = true ∧
    (hashExists db (compute_quote_hash ct (resolveAuthorName site page i ⟨ct, cai, none, none⟩)) = true →
      (processCandidate site page url (db, saved, errors) (i, ⟨ct, cai, none, none⟩)).1.quotes = db.quotes ∧
      (processCandidate site page url (db, saved, errors) (i, ⟨ct, cai, none, none⟩)).2.1 = saved ∧
      (processCandidate site page url (db, saved, errors) (i, ⟨ct, cai, none, none⟩)).2.2 = errors) ∧
    (hashExists db (compute_quote_hash ct (resolveAuthorName site page i ⟨ct, cai, none, none⟩)) = false →
      (processCandidate site page url (db, saved, errors) (i, ⟨ct, cai, none, none⟩)).1.quotes =
        db.quotes ++ [⟨ct, authorRefOf (resolveAuthorName site page i ⟨ct, cai, none, none⟩), some url,
          compute_quote_hash ct (resolveAuthorName site page i ⟨ct, cai, none, none⟩)⟩] ∧
      (processCandidate site page url (db, saved, errors) (i, ⟨ct, cai, none, none⟩)).2.1 = saved + 1 ∧
      (processCandidate site page url (db, saved, errors) (i, ⟨ct, cai, none, none⟩)).2.2 = errors) := by
  have hA : (authorStep db (resolveAuthorName site page i ⟨ct, cai, none, none⟩)).quotes = db.quotes :=
    authorStep_quotes _ _
  have hEx := hashExists_congr hA
    (compute_quote_hash ct (resolveAuthorName site page i ⟨ct, cai, none, none⟩))
  by_cases hdb : hashExists db
      (compute_quote_hash ct (resolveAuthorName site page i ⟨ct, cai, none, none⟩)) = true
  · have hred : processCandidate site page url (db, saved, errors) (i, ⟨ct, cai, none, none⟩) =
        (authorStep db (resolveAuthorName site page i ⟨ct, cai, none, none⟩), saved, errors) := by
      simp only [processCandidate, concurrentWrite_none]
      rw [if_pos (hEx.trans hdb)]
    rw [hred]
    refine ⟨hEx.trans hdb, fun _ => ⟨hA, rfl, rfl⟩, fun hf => absurd hdb (by simp [hf])⟩
  · rw [Bool.not_eq_true] at hdb
    have hred : processCandidate site page url (db, saved, errors) (i, ⟨ct, cai, none, none⟩) =
        ({ authorStep db (resolveAuthorName site page i ⟨ct, cai, none, none⟩) with
            quotes := (authorStep db (resolveAuthorName site page i ⟨ct, cai, none, none⟩)).quotes ++
              [⟨ct, authorRefOf (resolveAuthorName site page i ⟨ct, cai, none, none⟩), some url,
                compute_quote_hash ct (resolveAuthorName site page i ⟨ct, cai, none, none⟩)⟩] },
          saved + 1, errors) := by
      simp only [processCandidate, concurrentWrite_none]
      rw [if_neg (by simp [hEx.trans hdb]), if_neg (by simp [hEx.trans hdb])]
    rw [hred]
    refine ⟨?_, fun ht => absurd ht (by simp [hdb]), fun _ => ⟨by rw [hA], rfl, rfl⟩⟩
    simp [hashExists]

/-- Rows are only appended by one candidate step, whatever is injected. -/
theorem processCandidate_quotes_mono (site : ScrapeSite) (page : Page) (url : Str)
    (db : DB) (saved errors i : Nat) (c : Candidate) :
    ∃ t, (processCandidate site page url (db, saved, errors) (i, c)).1.quotes =
      db.quotes ++ t := by
  obtain ⟨ct, cai, cr, cc⟩ := c
  cases cr with
  | some m => exact ⟨[], by simp [processCandidate]⟩
  | none =>
    simp only [processCandidate]
    split
    · obtain ⟨t, ht⟩ :=
        concurrentWrite_quotes (authorStep db (resolveAuthorName site page i ⟨ct, cai, none, cc⟩)) cc
      exact ⟨t, by rw [ht, authorStep_quotes]⟩
    · split
      · obtain ⟨t, ht⟩ := concurrentWrite_quotes db cc
        exact ⟨t, ht⟩
      · obtain ⟨t, ht⟩ :=
          concurrentWrite_quotes (authorStep db (resolveAuthorName site page i ⟨ct, cai, none, cc⟩)) cc
        refine ⟨t ++ [⟨ct, authorRefOf (resolveAuthorName site page i ⟨ct, cai, none, cc⟩), some url,
          compute_quote_hash ct (resolveAuthorName site page i ⟨ct, cai, none, cc⟩)⟩], ?_⟩
        show (concurrentWrite (authorStep db (resolveAuthorName site page i ⟨ct, cai, none, cc⟩)) cc).quotes ++ _ =
          db.quotes ++ _
        rw [ht, authorStep_quotes, List.append_assoc]

/-- Every row a candidate step can insert is built by the shared persistence
path: its hash is `compute_quote_hash` of the (text, author_name) pair and
its author reference is `authorRefOf` of that pair. -/
theorem concurrentWrite_preserves (P : Quote → Prop)
    (hP : ∀ tx an u, P ⟨tx, authorRefOf an, u, compute_quote_hash tx an⟩)
    (db : DB) (wopt : Option (Str × Option Str)) (h : ∀ q ∈ db.quotes, P q) :
    ∀ q ∈ (concurrentWrite db wopt).quotes, P q := by
  unfold concurrentWrite
  cases wopt with
  | none => exact h
  | some p =>
    simp only
    split
    · exact h
    · intro q hq
      rcases List.mem_append.mp hq with hq | hq
      · exact h q hq
      · simp only [List.mem_singleton] at hq
        subst hq
        exact hP p.1 p.2 none

theorem processCandidate_preserves (P : Quote → Prop)
    (hP : ∀ tx an u, P ⟨tx, authorRefOf an, u, compute_quote_hash tx an⟩)
    (site : ScrapeSite) (page : Page) (url : Str)
    (db : DB) (saved errors i : Nat) (c : Candidate)
    (h : ∀ q ∈ db.quotes, P q) :
    ∀ q ∈ (processCandidate site page url (db, saved, errors) (i, c)).1.quotes, P q := by
  obtain ⟨ct, cai, cr, cc⟩ := c
  cases cr with
  | some m => simpa [processCandidate] using h
  | none =>
    have hdbA : ∀ q ∈ (authorStep db (resolveAuthorName site page i ⟨ct, cai, none, cc⟩)).quotes, P q := by
      rw [authorStep_quotes]; exact h
    simp only [processCandidate]
    split
    · exact concurrentWrite_preserves P hP _ cc hdbA
    · split
      · exact concurrentWrite_preserves P hP db cc h
      · intro q hq
        rcases List.mem_append.mp hq with hq | hq
        · exact concurrentWrite_preserves P hP _ cc hdbA q hq
        · simp only [List.mem_singleton] at hq
          subst hq
          exact hP ct _ (some url)

theorem concurrentWrite_hashUnique (db : DB) (wopt : Option (Str × Option Str))
    (h : hashUnique db.quotes) : hashUnique (concurrentWrite db wopt).quotes := by
  unfold concurrentWrite
  cases wopt with
  | none => exact h
  | some p =>
    simp only
    split
    · exact h
    · next hne =>
      rw [hashUnique, List.pairwise_append]
      refine ⟨h, by simp, ?_⟩
      intro a ha b hb
      simp only [List.mem_singleton] at hb
      subst hb
      have := hashExists_false_forall (by simpa using hne) a ha
      simpa using this

theorem processCandidate_hashUnique (site : ScrapeSite) (page : Page) (url : Str)
    (db : DB) (saved errors i : Nat) (c : Candidate)
    (h : hashUnique db.quotes) :
    hashUnique (processCandidate site page url (db, saved, errors) (i, c)).1.quotes := by
  obtain ⟨ct, cai, cr, cc⟩ := c
  cases cr with
  | some m => simpa [processCandidate] using h
  | none =>
    have hdbA : hashUnique (authorStep db (resolveAuthorName site page i ⟨ct, cai, none, cc⟩)).quotes := by
      rw [authorStep_quotes]; exact h
    simp only [processCandidate]
    split
    · exact concurrentWrite_hashUnique _ cc hdbA
    · split
      · exact concurrentWrite_hashUnique db cc h
      · next h1 h2 =>
        show hashUnique
          ((concurrentWrite (authorStep db (resolveAuthorName site page i ⟨ct, cai, none, cc⟩)) cc).quotes ++ _)
        rw [hashUnique, List.pairwise_append]
        refine ⟨concurrentWrite_hashUnique _ cc hdbA, by simp, ?_⟩
        intro a ha b hb
        simp only [List.mem_singleton] at hb
        subst hb
        have := hashExists_false_forall (by simpa using h2) a ha
        simpa using this

/-! ## Support lemmas: the candidate fold of one page -/

theorem foldl_quotes_mono (site : ScrapeSite) (page : Page) (url : Str) :
    ∀ (l : List (Nat × Candidate)) (st : DB × Nat × Nat),
    ∃ t, (l.foldl (processCandidate site page url) st).1.quotes = st.1.quotes ++ t := by
  intro l
  induction l with
  | nil => intro st; exact ⟨[], by simp⟩
  | cons p rest ih =>
    intro st
    obtain ⟨db, s, e⟩ := st
    obtain ⟨i, c⟩ := p
    obtain ⟨t1, h1⟩ := processCandidate_quotes_mono site page url db s e i c
    obtain ⟨t2, h2⟩ := ih (processCandidate site page url (db, s, e) (i, c))
    rw [List.foldl_cons]
    exact ⟨t1 ++ t2, by rw [h2, h1, List.append_assoc]⟩

theorem foldl_preserves (P : Quote → Prop)
    (hP : ∀ tx an u, P ⟨tx, authorRefOf an, u, compute_quote_hash tx an⟩)
    (site : ScrapeSite) (page : Page) (url : Str) :
    ∀ (l : List (Nat × Candidate)) (st : DB × Nat × Nat),
    (∀ q ∈ st.1.quotes, P q) →
    ∀ q ∈ (l.foldl (processCandidate site page url) st).1.quotes, P q := by
  intro l
  induction l with
  | nil => intro st h; exact h
  | cons p rest ih =>
    intro st h
    obtain ⟨db, s, e⟩ := st
    obtain ⟨i, c⟩ := p
    rw [List.foldl_cons]
    exact ih _ (processCandidate_preserves P hP site page url db s e i c h)

theorem foldl_hashUnique (site : ScrapeSite) (page : Page) (url : Str) :
    ∀ (l : List (Nat × Candidate)) (st : DB × Nat × Nat),
    hashUnique st.1.quotes →
    hashUnique (l.foldl (processCandidate site page url) st).1.quotes := by
  intro l
  induction l with
  | nil => intro st h; exact h
  | cons p rest ih =>
    intro st h
    obtain ⟨db, s, e⟩ := st
    obtain ⟨i, c⟩ := p
    rw [List.foldl_cons]
    exact ih _ (processCandidate_hashUnique site page url db s e i c h)

theorem foldl_clean_mem (site : ScrapeSite) (page : Page) (url : Str) :
    ∀ (l : List (Nat × Candidate)) (st : DB × Nat × Nat),
    (∀ p ∈ l, (p : Nat × Candidate).2.raises = none ∧ p.2.concurrent = none) →
    ∀ p ∈ l, hashExists (l.foldl (processCandidate site page url) st).1
      (compute_quote_hash p.2.text (resolveAuthorName site page p.1 p.2)) = true := by
  intro l
  induction l with
  | nil => intro st _ p hp; simp at hp
  | cons q rest ih =>
    intro st hcl p hp
    obtain ⟨db, s, e⟩ := st
    rw [List.foldl_cons]
    rcases List.mem_cons.mp hp with rfl | hp
    · obtain ⟨j, cq⟩ := p
      obtain ⟨qt, qa, qr, qc⟩ := cq
      obtain ⟨hr, hc⟩ := hcl _ (List.mem_cons_self _ _)
      dsimp only at hr hc
      subst hr; subst hc
      have hmem := (processCandidate_clean site page url db s e j qt qa).1
      obtain ⟨t2, h2⟩ := foldl_quotes_mono site page url rest
        (processCandidate site page url (db, s, e) (j, ⟨qt, qa, none, none⟩))
      exact hashExists_append h2 hmem
    · exact ih _ (fun r hr => hcl r (List.mem_cons_of_mem _ hr)) p hp

theorem foldl_clean_skip (site : ScrapeSite) (page : Page) (url : Str) :
    ∀ (l : List (Nat × Candidate)) (st : DB × Nat × Nat),
    (∀ p ∈ l, (p : Nat × Candidate).2.raises = none ∧ p.2.concurrent = none) →
    (∀ p ∈ l, hashExists st.1
      (compute_quote_hash p.2.text (resolveAuthorName site page p.1 p.2)) = true) →
    (l.foldl (processCandidate site page url) st).1.quotes = st.1.quotes ∧
    (l.foldl (processCandidate site page url) st).2.1 = st.2.1 ∧
    (l.foldl (processCandidate site page url) st).2.2 = st.2.2 := by
  intro l
  induction l with
  | nil => intro st _ _; exact ⟨rfl, rfl, rfl⟩
  | cons q rest ih =>
    intro st hcl hex
    obtain ⟨db, s, e⟩ := st
    obtain ⟨j, cq⟩ := q
    obtain ⟨qt, qa, qr, qc⟩ := cq
    obtain ⟨hr, hc⟩ := hcl _ (List.mem_cons_self _ _)
    dsimp only at hr hc
    subst hr; subst hc
    have hx := hex (j, ⟨qt, qa, none, none⟩) (List.mem_cons_self _ _)
    dsimp only at hx
    obtain ⟨hq, hs, he⟩ := (processCandidate_clean site page url db s e j qt qa).2.1 hx
    rw [List.foldl_cons]
    have hex₂ : ∀ p ∈ rest, hashExists
        (processCandidate site page url (db, s, e) (j, ⟨qt, qa, none, none⟩)).1
        (compute_quote_hash (p : Nat × Candidate).2.text
          (resolveAuthorName site page p.1 p.2)) = true := by
      intro p hp
      rw [hashExists_congr hq]
      exact hex p (List.mem_cons_of_mem _ hp)
    obtain ⟨ihq, ihs, ihe⟩ := ih _ (fun r hr => hcl r (List.mem_cons_of_mem _ hr)) hex₂
    exact ⟨ihq.trans hq, ihs.trans hs, ihe.trans he⟩

/-! ## Support lemmas: the page loop -/

theorem sameUrlGuard_eq (u : Option Str) : sameUrlGuard u = u := by
  cases u with
  | none => rfl
  | some x => simp [sameUrlGuard]

theorem enum_clean (page : Page) (hcp : cleanPage page) :
    ∀ p ∈ page.quoteNodes.enum,
      (p : Nat × Candidate).2.raises = none ∧ p.2.concurrent = none := by
  intro p hp
  obtain ⟨i, c⟩ := p
  rw [List.enum_eq_zip_range] at hp
  exact hcp c (List.of_mem_zip hp).2

theorem runPages_quotes_mono (w : World) (site : ScrapeSite) :
    ∀ (fuel : Nat) (st : LoopSt),
    ∃ t, (endSt (runPages w site fuel st)).db.quotes = st.db.quotes ++ t := by
  intro fuel
  induction fuel with
  | zero => intro st; exact ⟨[], by simp [runPages, endSt]⟩
  | succ n ih =>
    intro st
    rcases st with ⟨db, job, f, s, e, nu, ps⟩
    cases nu with
    | none => exact ⟨[], by simp [runPages, endSt]⟩
    | some url =>
      cases hw : w url with
      | netErr m => exact ⟨[], by simp [runPages, hw, endSt]⟩
      | fatalErr m => exact ⟨[], by simp [runPages, hw, endSt]⟩
      | ok page =>
        obtain ⟨t2, h2⟩ := ih (pageStep site page url ⟨db, job, f, s, e, some url, ps⟩)
        obtain ⟨t1, h1⟩ := foldl_quotes_mono site page url page.quoteNodes.enum (db, s, e)
        refine ⟨t1 ++ t2, ?_⟩
        have hrun : runPages w site (n + 1) ⟨db, job, f, s, e, some url, ps⟩ =
            runPages w site n (pageStep site page url ⟨db, job, f, s, e, some url, ps⟩) := by
          simp [runPages, hw]
        rw [hrun, h2]
        have hps : (pageStep site page url ⟨db, job, f, s, e, some url, ps⟩).db.quotes =
            db.quotes ++ t1 := h1
        rw [hps, List.append_assoc]

theorem runPages_preserves (P : Quote → Prop)
    (hP : ∀ tx an u, P ⟨tx, authorRefOf an, u, compute_quote_hash tx an⟩)
    (w : World) (site : ScrapeSite) :
    ∀ (fuel : Nat) (st : LoopSt), (∀ q ∈ st.db.quotes, P q) →
    ∀ q ∈ (endSt (runPages w site fuel st)).db.quotes, P q := by
  intro fuel
  induction fuel with
  | zero => intro st h; simpa [runPages, endSt] using h
  | succ n ih =>
    intro st h
    rcases st with ⟨db, job, f, s, e, nu, ps⟩
    cases nu with
    | none => simpa [runPages, endSt] using h
    | some url =>
      cases hw : w url with
      | netErr m => simpa [runPages, hw, endSt] using h
      | fatalErr m => simpa [runPages, hw, endSt] using h
      | ok page =>
        have hrun : runPages w site (n + 1) ⟨db, job, f, s, e, some url, ps⟩ =
            runPages w site n (pageStep site page url ⟨db, job, f, s, e, some url, ps⟩) := by
          simp [runPages, hw]
        rw [hrun]
        refine ih _ ?_
        show ∀ q ∈ (page.quoteNodes.enum.foldl (processCandidate site page url)
          (db, s, e)).1.quotes, P q
        exact foldl_preserves P hP site page url page.quoteNodes.enum (db, s, e) h

theorem runPages_hashUnique (w : World) (site : ScrapeSite) :
    ∀ (fuel : Nat) (st : LoopSt), hashUnique st.db.quotes →
    hashUnique (endSt (runPages w site fuel st)).db.quotes := by
  intro fuel
  induction fuel with
  | zero => intro st h; simpa [runPages, endSt] using h
  | succ n ih =>
    intro st h
    rcases st with ⟨db, job, f, s, e, nu, ps⟩
    cases nu with
    | none => simpa [runPages, endSt] using h
    | some url =>
      cases hw : w url with
      | netErr m => simpa [runPages, hw, endSt] using h
      | fatalErr m => simpa [runPages, hw, endSt] using h
      | ok page =>
        have hrun : runPages w site (n + 1) ⟨db, job, f, s, e, some url, ps⟩ =
            runPages w site n (pageStep site page url ⟨db, job, f, s, e, some url, ps⟩) := by
          simp [runPages, hw]
        rw [hrun]
        refine ih _ ?_
        show hashUnique (page.quoteNodes.enum.foldl (processCandidate site page url)
          (db, s, e)).1.quotes
        exact foldl_hashUnique site page url page.quoteNodes.enum (db, s, e) h

/-- Within the model a fatal exception is raised before any candidate of the
failing page is processed, so the in-memory saved/errors deltas carried out
by the exception are the zeros left by the preceding flush. -/
theorem runPages_error_state (w : World) (site : ScrapeSite) :
    ∀ (fuel : Nat) (st : LoopSt) (msg : Str) (st' : LoopSt),
    st.saved = 0 → st.errors = 0 →
    runPages w site fuel st = Except.error (msg, st') →
    st'.saved = 0 ∧ st'.errors = 0 := by
  intro fuel
  induction fuel with
  | zero => intro st msg st' _ _ h; simp [runPages] at h
  | succ n ih =>
    intro st msg st' hs he h
    rcases st with ⟨db, job, f, s, e, nu, ps⟩
    dsimp only at hs he
    subst hs; subst he
    cases nu with
    | none => simp [runPages] at h
    | some url =>
      cases hw : w url with
      | netErr m => simp [runPages, hw] at h
      | fatalErr m =>
        simp only [runPages, hw] at h
        have h2 := Except.error.inj h
        injection h2 with hm hst
        subst hst
        exact ⟨rfl, rfl⟩
      | ok page =>
        have hrun : runPages w site (n + 1) ⟨db, job, f, 0, 0, some url, ps⟩ =
            runPages w site n (pageStep site page url ⟨db, job, f, 0, 0, some url, ps⟩) := by
          simp [runPages, hw]
        rw [hrun] at h
        exact ih _ msg st' rfl rfl h

/-- Re-running the loop over the same world after a completed clean run adds
no quote row and no saved count: every clean candidate's hash is already
stored by the first run. -/
theorem runPages_rerun (w : World) (site : ScrapeSite) (hw : cleanWorld w) :
    ∀ (fuel : Nat) (st1 st2 end1 : LoopSt),
    runPages w site fuel st1 = Except.ok end1 →
    st2.next_url = st1.next_url →
    st2.db.quotes = end1.db.quotes →
    st2.saved = 0 →
    ∃ end2, runPages w site fuel st2 = Except.ok end2 ∧
      end2.db.quotes = end1.db.quotes ∧
      end2.saved = 0 ∧
      end2.job.quotes_saved = st2.job.quotes_saved := by
  intro fuel
  induction fuel with
  | zero =>
    intro st1 st2 end1 h1 hnu hq hs
    simp only [runPages] at h1 ⊢
    have he1 := Except.ok.inj h1
    subst he1
    exact ⟨st2, rfl, hq, hs, rfl⟩
  | succ n ih =>
    intro st1 st2 end1 h1 hnu hq hs
    rcases st1 with ⟨db1, job1, f1, s1, e1, nu1, ps1⟩
    rcases st2 with ⟨db2, job2, f2, s2, e2, nu2, ps2⟩
    dsimp only at hnu hq hs
    subst hnu
    subst hs
    cases nu2 with
    | none =>
      simp only [runPages] at h1 ⊢
      have he1 := Except.ok.inj h1
      subst he1
      exact ⟨_, rfl, hq, rfl, rfl⟩
    | some url =>
      cases hw2 : w url with
      | netErr m =>
        simp only [runPages, hw2] at h1 ⊢
        exact ⟨_, rfl, hq, rfl, rfl⟩
      | fatalErr m =>
        simp only [runPages, hw2] at h1
        exact absurd h1 (by simp)
      | ok page =>
        simp only [runPages, hw2] at h1 ⊢
        have hcp : cleanPage page := hw url page hw2
        have hclean := enum_clean page hcp
        have hsat := foldl_clean_mem site page url page.quoteNodes.enum (db1, s1, e1) hclean
        obtain ⟨t, ht⟩ := runPages_quotes_mono w site n
          (pageStep site page url ⟨db1, job1, f1, s1, e1, some url, ps1⟩)
        rw [h1] at ht
        simp only [endSt] at ht
        have hex2 : ∀ p ∈ page.quoteNodes.enum, hashExists db2
            (compute_quote_hash (p : Nat × Candidate).2.text
              (resolveAuthorName site page p.1 p.2)) = true := by
          intro p hp
          rw [hashExists_congr hq
            (compute_quote_hash p.2.text (resolveAuthorName site page p.1 p.2))]
          exact hashExists_append ht (hsat p hp)
        obtain ⟨hqf, hsf, hef⟩ := foldl_clean_skip site page url page.quoteNodes.enum
          (db2, 0, e2) hclean hex2
        have hq' : (pageStep site page url ⟨db2, job2, f2, 0, e2, some url, ps2⟩).db.quotes =
            end1.db.quotes := by
          simp only [pageStep]
          exact hqf.trans hq
        obtain ⟨end2, hrun2, hq2, hs2, hjs2⟩ :=
          ih (pageStep site page url ⟨db1, job1, f1, s1, e1, some url, ps1⟩)
            (pageStep site page url ⟨db2, job2, f2, 0, e2, some url, ps2⟩) end1 h1 rfl hq' rfl
        refine ⟨end2, hrun2, hq2, hs2, ?_⟩
        rw [hjs2]
        have hps : (pageStep site page url ⟨db2, job2, f2, 0, e2, some url, ps2⟩).job.quotes_saved =
            job2.quotes_saved := by
          simp only [pageStep, increment_counters]
          rw [hsf]
          simp
        rw [hps]

theorem pageStep_eq_noguard (site : ScrapeSite) (page : Page) (url : Str) (st : LoopSt) :
    pageStep site page url st = pageStepNoGuard site page url st := by
  unfold pageStep pageStepNoGuard
  rw [sameUrlGuard_eq]

theorem runPages_eq_noguard (w : World) (site : ScrapeSite) :
    ∀ (fuel : Nat) (st : LoopSt),
    runPages w site fuel st = runPagesNoGuard w site fuel st := by
  intro fuel
  induction fuel with
  | zero => intro st; rfl
  | succ n ih =>
    intro st
    rcases st with ⟨db, job, f, s, e, nu, ps⟩
    cases nu with
    | none => rfl
    | some url =>
      cases hw : w url with
      | netErr m => simp [runPages, runPagesNoGuard, hw]
      | fatalErr m => simp [runPages, runPagesNoGuard, hw]
      | ok page => simp [runPages, runPagesNoGuard, hw, pageStep_eq_noguard, ih]

/-- Every stored row of the crawl result keeps a 64-character lowercase hex
hash whenever the starting table does. -/
theorem scrape_site_preserves_hex (w : World) (site : ScrapeSite) (db : DB)
    (job : ScrapeJob) (t1 t2 : Nat) (h : ∀ q ∈ db.quotes, isHex64 q.hash) :
    ∀ q ∈ (resultOf (scrape_site w site db job t1 t2)).db.quotes, isHex64 q.hash := by
  have hrun := runPages_preserves (fun q => isHex64 q.hash)
    (fun tx an u => sha256hex_isHex64 _) w site site.max_pages
    (initSt db (mark_running t1 job) site) h
  simp only [scrape_site]
  cases hr : runPages w site site.max_pages (initSt db (mark_running t1 job) site) with
  | ok st =>
    rw [hr] at hrun
    simpa [endSt, resultOf] using hrun
  | error p =>
    obtain ⟨msg, st⟩ := p
    rw [hr] at hrun
    simp only [endSt] at hrun
    simpa [resultOf] using hrun

/-! ## The claims -/

/-- C1: for every `finish(success)` call with counters (saved, errors): the
finish timestamp is set; `success = false` gives FAILED; `saved = 0` gives
FAILED regardless of errors; `saved > 0` with no errors gives SUCCESS;
`saved > 0` with errors gives PARTIAL. -/
theorem finish_status_derivation (j : ScrapeJob) (t : Nat) (success : Bool) :
    (mark_finished t success j).finished_at = some t ∧
    (success = false → (mark_finished t success j).status = Status.FAILED) ∧
    (j.quotes_saved = 0 → (mark_finished t success j).status = Status.FAILED) ∧
    (success = true → j.quotes_saved > 0 → j.errors_count = 0 →
      (mark_finished t success j).status = Status.SUCCESS) ∧
    (success = true → j.quotes_saved > 0 → j.errors_count > 0 →
      (mark_finished t success j).status = Status.PARTIAL) := by
  unfold mark_finished
  cases success <;> simp <;> split_ifs <;> simp_all <;> omega

/-- C5: `compute_quote_hash` is invariant under its own normalization
(`hash(text, author) = hash(normalize(text), normalize(author))`), and its
output is always a 64-character lowercase hex SHA-256 digest; as a pure Lean
function it is deterministic by construction. -/
theorem hash_normalization_spec (t : Str) (a : Option Str) :
    compute_quote_hash t a = compute_quote_hash (normText t) (some (normAuthor a)) ∧
    isHex64 (compute_quote_hash t a) := by
  constructor
  · unfold compute_quote_hash
    rw [normText_idem, normAuthor_idem]
  · exact sha256hex_isHex64 _

/-- C7: for the quote node at index `i`, the author is resolved in priority
order — the independently selected author-node sequence at index `i` first,
else a configured-selector match inside the node's own subtree, else absent;
and an absent author leads to a stored row with a null author reference. -/
theorem author_resolution_priority (site : ScrapeSite) (page : Page) (i : Nat)
    (c : Candidate) :
    ((if site.author_selector ≠ [] then page.authorNodes else []) ≠ [] ∧
        i < (if site.author_selector ≠ [] then page.authorNodes else []).length →
      resolveAuthorName site page i c =
        some ((if site.author_selector ≠ [] then page.authorNodes else []).getD i [])) ∧
    (¬ i < (if site.author_selector ≠ [] then page.authorNodes else []).length →
      site.author_selector ≠ [] →
      resolveAuthorName site page i c = c.authorInside) ∧
    (site.author_selector = [] → resolveAuthorName site page i c = none) ∧
    (∀ (db : DB) (saved errors : Nat) (url : Str),
      c.raises = none → c.concurrent = none →
      resolveAuthorName site page i c = none →
      hashExists db (compute_quote_hash c.text none) = false →
      (processCandidate site page url (db, saved, errors) (i, c)).1.quotes =
        db.quotes ++ [⟨c.text, none, some url, compute_quote_hash c.text none⟩]) := by
  refine ⟨?_, ?_, ?_, ?_⟩
  · intro h
    unfold resolveAuthorName
    rw [if_pos h]
  · intro hge hsel
    unfold resolveAuthorName
    rw [if_neg (by tauto), if_pos hsel]
  · intro hsel
    unfold resolveAuthorName
    simp [hsel]
  · intro db saved errors url hr hc hres hhe
    obtain ⟨ct, cai, cr, cc⟩ := c
    dsimp only at hr hc hres ⊢
    subst hr; subst hc
    have h3 := (processCandidate_clean site page url db saved errors i ct cai).2.2
    rw [hres] at h3
    exact (h3 hhe).1

/-- C8: the three job counters never decrease: `increment_counters` with the
non-negative deltas the crawl loop produces only adds, and `mark_running` /
`mark_finished` leave every counter unchanged. -/
theorem counter_monotonicity (j : ScrapeJob) (f s e : Int) (t t₂ : Nat) (b : Bool)
    (hf : 0 ≤ f) (hs : 0 ≤ s) (he : 0 ≤ e) :
    j.quotes_fetched ≤ (increment_counters j f s e).quotes_fetched ∧
    j.quotes_saved ≤ (increment_counters j f s e).quotes_saved ∧
    j.errors_count ≤ (increment_counters j f s e).errors_count ∧
    (mark_running t j).quotes_fetched = j.quotes_fetched ∧
    (mark_running t j).quotes_saved = j.quotes_saved ∧
    (mark_running t j).errors_count = j.errors_count ∧
    (mark_finished t₂ b j).quotes_fetched = j.quotes_fetched ∧
    (mark_finished t₂ b j).quotes_saved = j.quotes_saved ∧
    (mark_finished t₂ b j).errors_count = j.errors_count := by
  obtain ⟨h1, h2, h3⟩ := mark_finished_counters t₂ b j
  obtain ⟨h4, h5, h6⟩ := mark_running_counters t j
  refine ⟨?_, ?_, ?_, h4, h5, h6, h1, h2, h3⟩ <;> simp [increment_counters] <;> omega

/-- Witness for C8 at a concrete job and concrete non-negative deltas. -/
theorem counter_monotonicity_witness :
    jobZero.errors_count ≤ (increment_counters jobZero 2 1 1).errors_count :=
  (counter_monotonicity jobZero 2 1 1 0 1 true (by decide) (by decide) (by decide)).2.2.1

/-- C9: the same-URL safeguard of tasks.py lines 140-143 is semantically a
no-op: it returns the pending URL unchanged, the loop's next URL is exactly
the discovered target resolved against the base URL, the orchestrator with
the guard is extensionally equal to the orchestrator with the guard removed,
and a pagination link resolving to the current page's URL is fetched again,
bounded only by the page cap (three fetches of the same page at cap 3). -/
theorem pagination_guard_noop :
    (∀ u : Option Str, sameUrlGuard u = u) ∧
    (∀ (site : ScrapeSite) (page : Page) (url : Str) (st : LoopSt),
      (pageStep site page url st).next_url = discoverNext site page) ∧
    (∀ (w : World) (site : ScrapeSite) (db : DB) (job : ScrapeJob) (t1 t2 : Nat),
      scrape_site w site db job t1 t2 = scrape_site_noguard w site db job t1 t2) ∧
    (∃ r, scrape_site worldSelf siteW dbEmpty jobZero 0 1 = Except.ok r ∧
      r.job.quotes_fetched = 3 ∧
      r.pages_scraped =
        [strOf "http://q.com/", strOf "http://q.com/", strOf "http://q.com/"]) := by
  refine ⟨sameUrlGuard_eq, ?_, ?_, ?_⟩
  · intro site page url st
    show sameUrlGuard (discoverNext site page) = discoverNext site page
    exact sameUrlGuard_eq _
  · intro w site db job t1 t2
    simp only [scrape_site, scrape_site_noguard]
    rw [runPages_eq_noguard]
  · exact ⟨(scrape_site worldSelf siteW dbEmpty jobZero 0 1).toOption.get (by decide),
      rfl, by decide, by decide⟩

/-- C10: every persisted quote carries a 64-character lowercase hex hash:
`Quote.save` backfills an unset hash from the text and the linked author's
name (empty when the reference is null), the serializer creation path goes
through that backfill, and the crawl loop only ever stores
`compute_quote_hash` digests. -/
theorem stored_hash_invariant :
    (∀ q : Quote, q.hash = [] →
      (quote_save q).hash = compute_quote_hash q.text (some (q.author.getD [])) ∧
      isHex64 (quote_save q).hash) ∧
    (∀ (text : Str) (author : Option Str) (source_url : Option Str),
      isHex64 (serializer_create_quote text author source_url).hash) ∧
    (∀ (w : World) (site : ScrapeSite) (db : DB) (job : ScrapeJob) (t1 t2 : Nat),
      (∀ q ∈ db.quotes, isHex64 q.hash) →
      ∀ q ∈ (resultOf (scrape_site w site db job t1 t2)).db.quotes, isHex64 q.hash) := by
  have hsave : ∀ q : Quote, q.hash = [] →
      (quote_save q).hash = compute_quote_hash q.text (some (q.author.getD [])) := by
    intro q hq
    unfold quote_save
    rw [if_pos hq]
    cases q.author <;> rfl
  refine ⟨fun q hq => ⟨hsave q hq, ?_⟩, ?_, scrape_site_preserves_hex⟩
  · rw [hsave q hq]
    exact sha256hex_isHex64 _
  · intro text author source_url
    unfold serializer_create_quote
    rw [hsave _ rfl]
    exact sha256hex_isHex64 _

/-- C4: when the very first page fetch fails on a fresh job, exactly one
"network" `ScrapeError` is recorded, no further page is attempted, and the
job ends FAILED with `quotes_fetched = 0`, `quotes_saved = 0`,
`errors_count = 1`. -/
theorem first_fetch_failure (w : World) (site : ScrapeSite) (db : DB) (job : ScrapeJob)
    (t1 t2 : Nat) (msg : Str)
    (hmp : 1 ≤ site.max_pages)
    (hw : w (startUrl site) = Fetch.netErr msg)
    (hf : job.quotes_fetched = 0) (hs : job.quotes_saved = 0) (he : job.errors_count = 0)
    (hdb : db.scrape_errors = []) :
    ∃ r, scrape_site w site db job t1 t2 = Except.ok r ∧
      r.job.status = Status.FAILED ∧
      r.job.quotes_fetched = 0 ∧ r.job.quotes_saved = 0 ∧ r.job.errors_count = 1 ∧
      r.db.scrape_errors = [⟨some (startUrl site), strOf "network", msg⟩] ∧
      r.db.quotes = db.quotes ∧
      r.pages_scraped = [] := by
  obtain ⟨m, hm⟩ : ∃ m, site.max_pages = m + 1 := ⟨site.max_pages - 1, by omega⟩
  simp only [scrape_site, initSt, hm, runPages, hw]
  refine ⟨_, rfl, ?_, ?_, ?_, ?_, ?_, ?_, ?_⟩ <;>
    simp [mark_finished, mark_running, increment_counters, hf, hs, he, hdb]

/-- Witness for C4: a world that times out on every fetch, a fresh job and an
empty error table. -/
theorem first_fetch_failure_witness :
    ∃ r, scrape_site worldNet siteW dbEmpty jobZero 0 1 = Except.ok r ∧
      r.job.status = Status.FAILED ∧
      r.job.quotes_fetched = 0 ∧ r.job.quotes_saved = 0 ∧ r.job.errors_count = 1 ∧
      r.db.scrape_errors = [⟨some (startUrl siteW), strOf "network", strOf "timeout"⟩] ∧
      r.db.quotes = dbEmpty.quotes ∧
      r.pages_scraped = [] :=
  first_fetch_failure worldNet siteW dbEmpty jobZero 0 1 (strOf "timeout")
    (by decide) rfl rfl rfl rfl rfl

/-- C3: a fatal exception escaping the page loop is recorded as a "fatal"
`ScrapeError`, the residual in-memory deltas plus one error count are
flushed (in the model the residual saved/error deltas at a fatal raise are
zero, so the flushed error delta is exactly one), the job is finalized
FAILED with its finish timestamp set, and the exception propagates to the
caller as `Except.error` with the same message. -/
theorem fatal_error_handling (w : World) (site : ScrapeSite) (db : DB) (job : ScrapeJob)
    (t1 t2 : Nat) (msg : Str) (st : LoopSt)
    (hrun : runPages w site site.max_pages (initSt db (mark_running t1 job) site) =
      Except.error (msg, st)) :
    ∃ r, scrape_site w site db job t1 t2 = Except.error (msg, r) ∧
      r.job.status = Status.FAILED ∧
      r.job.finished_at = some t2 ∧
      r.db.scrape_errors = st.db.scrape_errors ++ [⟨none, strOf "fatal", msg⟩] ∧
      r.db.quotes = st.db.quotes ∧
      r.job.quotes_fetched = st.job.quotes_fetched + (st.fetched : Int) ∧
      r.job.quotes_saved = st.job.quotes_saved + (st.saved : Int) ∧
      r.job.errors_count = st.job.errors_count + (st.errors : Int) + 1 ∧
      st.saved = 0 ∧ st.errors = 0 := by
  obtain ⟨hsv, her⟩ := runPages_error_state w site site.max_pages
    (initSt db (mark_running t1 job) site) msg st rfl rfl hrun
  simp only [scrape_site]
  rw [hrun]
  obtain ⟨hc1, hc2, hc3⟩ := mark_finished_counters t2 false
    (increment_counters st.job (st.fetched : Int) (st.saved : Int) 1)
  refine ⟨_, rfl, ?_, ?_, rfl, rfl, ?_, ?_, ?_, hsv, her⟩
  · simp [mark_finished]
  · simp [mark_finished]
  · rw [hc1]; simp [increment_counters]
  · rw [hc2]; simp [increment_counters]
  · rw [hc3]; simp [increment_counters, her]

theorem concurrentWrite_authors (db : DB) (wopt : Option (Str × Option Str)) :
    (concurrentWrite db wopt).authors = db.authors := by
  unfold concurrentWrite
  cases wopt with
  | none => rfl
  | some p =>
    simp only
    split <;> rfl

/-- The duplicate race in one candidate step: the pre-check passes, a
concurrent writer commits the same hash, the create raises IntegrityError,
the transaction rolls back and the per-candidate guard records a "parse"
error and counts it; processing then continues with the next candidate. -/
theorem processCandidate_race (site : ScrapeSite) (page : Page) (url : Str)
    (db : DB) (saved errors i : Nat) (ct ct₂ : Str) (cai ca₂ : Option Str)
    (heq : compute_quote_hash ct₂ ca₂ =
      compute_quote_hash ct (resolveAuthorName site page i ⟨ct, cai, none, some (ct₂, ca₂)⟩))
    (hpre : hashExists db (compute_quote_hash ct
      (resolveAuthorName site page i ⟨ct, cai, none, some (ct₂, ca₂)⟩)) = false) :
    processCandidate site page url (db, saved, errors) (i, ⟨ct, cai, none, some (ct₂, ca₂)⟩) =
      (⟨db.authors, db.quotes ++ [⟨ct₂, authorRefOf ca₂, none, compute_quote_hash ct₂ ca₂⟩],
        db.scrape_errors ++ [⟨some url, strOf "parse", strOf "IntegrityError"⟩]⟩,
       saved, errors + 1) := by
  have hA := authorStep_quotes db
    (resolveAuthorName site page i ⟨ct, cai, none, some (ct₂, ca₂)⟩)
  have hEx : hashExists
      (authorStep db (resolveAuthorName site page i ⟨ct, cai, none, some (ct₂, ca₂)⟩))
      (compute_quote_hash ct (resolveAuthorName site page i ⟨ct, cai, none, some (ct₂, ca₂)⟩)) =
      false := by
    rw [hashExists_congr hA]
    exact hpre
  have hMem : hashExists
      (concurrentWrite (authorStep db (resolveAuthorName site page i ⟨ct, cai, none, some (ct₂, ca₂)⟩))
        (some (ct₂, ca₂)))
      (compute_quote_hash ct (resolveAuthorName site page i ⟨ct, cai, none, some (ct₂, ca₂)⟩)) =
      true := by
    rw [← heq]
    exact concurrentWrite_mem _ _ _
  have hCW : concurrentWrite db (some (ct₂, ca₂)) =
      ⟨db.authors, db.quotes ++ [⟨ct₂, authorRefOf ca₂, none, compute_quote_hash ct₂ ca₂⟩],
        db.scrape_errors⟩ := by
    unfold concurrentWrite
    simp only
    rw [if_neg (by rw [heq, hpre]; simp)]
  simp only [processCandidate]
  rw [if_neg (by rw [hEx]; simp), if_pos hMem, hCW]

/-- C6 counterexample: in `worldRace` the single candidate's create loses a
race to a concurrent writer of the same normalized content past the
existence pre-check; the violation is absorbed by the per-candidate guard
(the run still returns), but it is recorded as a counted "parse" error and
the job finishes with status FAILED — the duplicate does surface as a job
failure, refuting the claim. -/
theorem duplicate_race_counterexample :
    ∃ r, scrape_site worldRace siteW dbEmpty jobZero 0 1 = Except.ok r ∧
      r.job.status = Status.FAILED ∧
      r.job.errors_count = 1 ∧
      r.job.quotes_saved = 0 ∧
      r.db.scrape_errors.map ScrapeError.error_type = [strOf "parse"] := by
  have hres : resolveAuthorName siteW pRace 0
      ⟨strOf "Quote one", none, none, some (strOf "Quote one", none)⟩ = none := by decide
  have hstep := processCandidate_race siteW pRace (startUrl siteW) dbEmpty 0 0 0
    (strOf "Quote one") (strOf "Quote one") none none (by rw [hres]) rfl
  have hw1 : worldRace (startUrl siteW) = Fetch.ok pRace := rfl
  have hmp : siteW.max_pages = 3 := rfl
  have henum : pRace.quoteNodes.enum =
      [(0, (⟨strOf "Quote one", none, none, some (strOf "Quote one", none)⟩ : Candidate))] := rfl
  have hdn : discoverNext siteW pRace = none := rfl
  simp only [scrape_site, initSt, hmp, runPages, hw1, pageStep, henum, List.foldl_cons,
    List.foldl_nil, hdn]
  rw [hstep]
  simp only [sameUrlGuard, runPages]
  refine ⟨_, rfl, ?_, ?_, ?_, ?_⟩ <;> decide

/-- C6 (amended): a hash-uniqueness violation raised past the existence
pre-check is caught by the per-candidate guard and is not fatal: it is
recorded as a ScrapeError of type "parse" and counts one error, only the
concurrent winner's row is stored, and the candidate step returns normally
so the page loop continues and nothing propagates out of the job — but
because the error is counted, the duplicate can surface in the final
status (PARTIAL, or FAILED as the counterexample shows). -/
theorem duplicate_race_absorbed (site : ScrapeSite) (page : Page) (url : Str)
    (db : DB) (saved errors i : Nat) (ct ct₂ : Str) (cai ca₂ : Option Str)
    (heq : compute_quote_hash ct₂ ca₂ =
      compute_quote_hash ct (resolveAuthorName site page i ⟨ct, cai, none, some (ct₂, ca₂)⟩))
    (hpre : hashExists db (compute_quote_hash ct
      (resolveAuthorName site page i ⟨ct, cai, none, some (ct₂, ca₂)⟩)) = false) :
    (processCandidate site page url (db, saved, errors)
        (i, ⟨ct, cai, none, some (ct₂, ca₂)⟩)).2.2 = errors + 1 ∧
    (processCandidate site page url (db, saved, errors)
        (i, ⟨ct, cai, none, some (ct₂, ca₂)⟩)).2.1 = saved ∧
    (processCandidate site page url (db, saved, errors)
        (i, ⟨ct, cai, none, some (ct₂, ca₂)⟩)).1.scrape_errors =
      db.scrape_errors ++ [⟨some url, strOf "parse", strOf "IntegrityError"⟩] ∧
    (processCandidate site page url (db, saved, errors)
        (i, ⟨ct, cai, none, some (ct₂, ca₂)⟩)).1.quotes =
      db.quotes ++ [⟨ct₂, authorRefOf ca₂, none, compute_quote_hash ct₂ ca₂⟩] := by
  rw [processCandidate_race site page url db saved errors i ct ct₂ cai ca₂ heq hpre]
  exact ⟨rfl, rfl, rfl, rfl⟩

/-- Witness for the amended C6 at the concrete race input of `worldRace`. -/
theorem duplicate_race_absorbed_witness :
    (processCandidate siteW pRace (startUrl siteW) (dbEmpty, 0, 0)
        (0, ⟨strOf "Quote one", none, none, some (strOf "Quote one", none)⟩)).2.2 = 0 + 1 ∧
    (processCandidate siteW pRace (startUrl siteW) (dbEmpty, 0, 0)
        (0, ⟨strOf "Quote one", none, none, some (strOf "Quote one", none)⟩)).2.1 = 0 ∧
    (processCandidate siteW pRace (startUrl siteW) (dbEmpty, 0, 0)
        (0, ⟨strOf "Quote one", none, none, some (strOf "Quote one", none)⟩)).1.scrape_errors =
      dbEmpty.scrape_errors ++
        [⟨some (startUrl siteW), strOf "parse", strOf "IntegrityError"⟩] ∧
    (processCandidate siteW pRace (startUrl siteW) (dbEmpty, 0, 0)
        (0, ⟨strOf "Quote one", none, none, some (strOf "Quote one", none)⟩)).1.quotes =
      dbEmpty.quotes ++
        [⟨strOf "Quote one", authorRefOf none, none,
          compute_quote_hash (strOf "Quote one") none⟩] := by
  have hres : resolveAuthorName siteW pRace 0
      ⟨strOf "Quote one", none, none, some (strOf "Quote one", none)⟩ = none := by decide
  exact duplicate_race_absorbed siteW pRace (startUrl siteW) dbEmpty 0 0 0
    (strOf "Quote one") (strOf "Quote one") none none (by rw [hres]) rfl

/-- The stored author reference does not change the hash: an empty resolved
name and an absent one normalize identically. -/
theorem compute_authorRefOf (tx : Str) (an : Option Str) :
    compute_quote_hash tx an = compute_quote_hash tx (authorRefOf an) := by
  cases an with
  | none => rfl
  | some s =>
    unfold authorRefOf
    simp only
    split
    · next h => subst h; rfl
    · rfl

/-- C2: re-running the scrape over identical page content (a clean world:
no injected exceptions, no concurrent writers) is idempotent on stored
quotes: the second run leaves the quote table unchanged, its saved counter
delta is zero, and afterwards at most one row exists for every unique
normalized (text, author) pair. -/
theorem rerun_idempotency (w : World) (site : ScrapeSite) (db0 : DB) (job0 : ScrapeJob)
    (t1 t2 t3 t4 : Nat) (r1 r2 : RunResult)
    (hw : cleanWorld w)
    (hu : hashUnique db0.quotes)
    (hok : ∀ q ∈ db0.quotes, rowHashOk q)
    (h1 : scrape_site w site db0 job0 t1 t2 = Except.ok r1)
    (h2 : scrape_site w site r1.db r1.job t3 t4 = Except.ok r2) :
    r2.db.quotes = r1.db.quotes ∧
    r2.job.quotes_saved = r1.job.quotes_saved ∧
    r2.db.quotes.Pairwise (fun a b => normPair a ≠ normPair b) := by
  simp only [scrape_site] at h1 h2
  cases hr1 : runPages w site site.max_pages (initSt db0 (mark_running t1 job0) site) with
  | error p =>
    obtain ⟨msg, st⟩ := p
    rw [hr1] at h1
    exact absurd h1 (by simp)
  | ok end1 =>
  rw [hr1] at h1
  have hr1v := Except.ok.inj h1
  have hdb1 : r1.db = end1.db := by rw [← hr1v]
  cases hr2 : runPages w site site.max_pages (initSt r1.db (mark_running t3 r1.job) site) with
  | error p =>
    obtain ⟨msg, st⟩ := p
    rw [hr2] at h2
    exact absurd h2 (by simp)
  | ok end2x =>
  rw [hr2] at h2
  have hr2v := Except.ok.inj h2
  obtain ⟨end2, hrun2, hq2, hs2, hjs2⟩ := runPages_rerun w site hw site.max_pages
    (initSt db0 (mark_running t1 job0) site)
    (initSt r1.db (mark_running t3 r1.job) site) end1 hr1 rfl
    (by show r1.db.quotes = end1.db.quotes; rw [hdb1]) rfl
  have hend : end2x = end2 := Except.ok.inj (hr2.symm.trans hrun2)
  subst hend
  have hdb2 : r2.db = end2x.db := by rw [← hr2v]
  have hc1 : r2.db.quotes = r1.db.quotes := by
    rw [hdb2, hdb1]
    exact hq2
  refine ⟨hc1, ?_, ?_⟩
  · have hjob2 : r2.job = mark_finished t4 true (increment_counters end2x.job
        (end2x.fetched : Int) (end2x.saved : Int) (end2x.errors : Int)) := by
      rw [← hr2v]
    rw [hjob2, (mark_finished_counters _ _ _).2.1]
    have hjob1 : r1.job = mark_finished t2 true (increment_counters end1.job
        (end1.fetched : Int) (end1.saved : Int) (end1.errors : Int)) := by
      rw [← hr1v]
    simp only [increment_counters, hs2]
    rw [hjs2]
    simp
    exact (mark_running_counters t3 r1.job).2.1
  · rw [hc1, hdb1]
    have huniq : hashUnique end1.db.quotes := by
      have := runPages_hashUnique w site site.max_pages
        (initSt db0 (mark_running t1 job0) site) hu
      rw [hr1] at this
      simpa [endSt] using this
    have hokk : ∀ q ∈ end1.db.quotes, rowHashOk q := by
      have := runPages_preserves rowHashOk
        (fun tx an u => by
          show compute_quote_hash tx an = compute_quote_hash tx (authorRefOf an)
          exact compute_authorRefOf tx an)
        w site site.max_pages (initSt db0 (mark_running t1 job0) site) hok
      rw [hr1] at this
      simpa [endSt] using this
    refine List.Pairwise.imp_of_mem ?_ huniq
    intro a b ha hb hne heqp
    apply hne
    rw [hokk a ha, hokk b hb]
    have hfst : normText a.text = normText b.text := by
      have := congrArg Prod.fst heqp
      simpa [normPair] using this
    have hsnd : normAuthor a.author = normAuthor b.author := by
      have := congrArg Prod.snd heqp
      simpa [normPair] using this
    unfold compute_quote_hash
    rw [hfst, hsnd]

/-- Witness for C2: two consecutive runs over `worldNet` from an empty
store. -/
theorem rerun_idempotency_witness :
    runNet2.db.quotes = runNet1.db.quotes ∧
    runNet2.job.quotes_saved = runNet1.job.quotes_saved ∧
    runNet2.db.quotes.Pairwise (fun a b => normPair a ≠ normPair b) :=
  rerun_idempotency worldNet siteW dbEmpty jobZero 0 1 3 4 runNet1 runNet2
    (by intro u p h; simp [worldNet] at h)
    (by simp [hashUnique, dbEmpty])
    (by simp [dbEmpty])
    rfl rfl

/-- Witness for C3: the first page of `worldFatal` raises while its document
is interpreted. -/
theorem fatal_error_handling_witness :
    ∃ r, scrape_site worldFatal siteW dbEmpty jobZero 0 1 =
        Except.error (strOf "boom", r) ∧
      r.job.status = Status.FAILED ∧
      r.job.finished_at = some 1 ∧
      r.db.scrape_errors = [] ++ [⟨none, strOf "fatal", strOf "boom"⟩] ∧
      r.db.quotes = ([] : List Quote) ∧
      r.job.quotes_fetched = 0 + ((1 : Nat) : Int) ∧
      r.job.quotes_saved = 0 + ((0 : Nat) : Int) ∧
      r.job.errors_count = 0 + ((0 : Nat) : Int) + 1 ∧
      (0 : Nat) = 0 ∧ (0 : Nat) = 0 := by
  have h := fatal_error_handling worldFatal siteW dbEmpty jobZero 0 1 (strOf "boom")
    ⟨dbEmpty, mark_running 0 jobZero, 1, 0, 0, some (startUrl siteW), [startUrl siteW]⟩
    rfl
  simpa [dbEmpty, mark_running, jobZero] using h

end Scraper
